import Mathlib

/-!
Verification development for the gpt-summerizer service: a shallow embedding
in Lean 4 of the account-rotation pool (`services/account_manager.py`), the
message extractor retry loop (`services/telegram_extractor.py`), the
statistics aggregator and merge (`services/helper.py`), and the tiered
summarization pipeline (`services/gpt_summerizer.py`), together with proofs
and refutations of the specified properties.

Conventions of the embedding:
* Python strings are Lean `String`; Python string comparison (`<` on
  strings, used as a sort key) is modelled by `strLt`, lexicographic
  comparison of Unicode code points, which is exactly Python's ordering.
* Python `datetime` values are abstracted by their observable parts (epoch
  ordering as `Int`, the hour as `Fin 24`, the weekday name); the external
  `datetime.fromisoformat` parser and the `re.findall` URL regex are
  parameters of the definitions that use them.
* A Python `dict` (insertion ordered, unique keys) is an association list;
  `defaultdict` access is an upsert that appends fresh keys at the end.
* Python's stable sorts (`list.sort`, `sorted`) are modelled by the stable
  insertion sort `stableSortBy`; stability makes the result unique for a
  total preorder, so any stable sort gives the same list.
* Functions whose Python body can raise return `Except`/`Option`; a
  function that also performs network calls additionally returns the list
  of calls it issued, so that "no network attempt" is a provable statement.
-/

/-- Lexicographic comparison of character lists by code point, the
comparison Python uses for `str < str`. -/
def charListLt : List Char → List Char → Bool
  | [], [] => false
  | [], _ :: _ => true
  | _ :: _, [] => false
  | a :: as, b :: bs =>
    if a.toNat < b.toNat then true
    else if b.toNat < a.toNat then false
    else charListLt as bs

/-- Python `s1 < s2` on strings. -/
def strLt (a b : String) : Bool := charListLt a.toList b.toList

/-- Python `sub in s` (substring containment). -/
def strContains (s sub : String) : Bool := decide (List.IsInfix sub.toList s.toList)

/-- Python `s.lower()` (ASCII-sufficient for the strings compared here). -/
def pyLower (s : String) : String := String.mk (s.data.map Char.toLower)

/-- Python whitespace test used by `str.strip()` (ASCII whitespace). -/
def pySpace (c : Char) : Bool := c = ' ' || c = '\t' || c = '\n' || c = '\r'

/-- Python `s.strip()`. -/
def pyStrip (s : String) : String :=
  String.mk (((s.data.dropWhile pySpace).reverse.dropWhile pySpace).reverse)

/-- Python `s[:n]` on strings. -/
def strTake (n : Nat) (s : String) : String := String.mk (s.data.take n)

/-- Python `x or default` for an optional string: `None` and `""` are falsy. -/
def pyOrStr (o : Option String) (d : String) : String :=
  match o with
  | none => d
  | some s => if s = "" then d else s

/-- Python `l[-n:]`: the last `n` elements (the whole list when shorter). -/
def pyTakeLast (n : Nat) (l : List α) : List α := l.drop (l.length - n)

/-- In-place update of the element at an index, `l[i] = f(l[i])`;
out-of-range indices leave the list unchanged. -/
def listModify (f : α → α) : Nat → List α → List α
  | _, [] => []
  | 0, x :: xs => f x :: xs
  | n + 1, x :: xs => x :: listModify f n xs

/-- One step of stable insertion: `x` moves past exactly the elements
strictly smaller than it (`lt y x`), so equal elements keep their original
relative order. -/
def insertSorted (lt : α → α → Bool) (x : α) : List α → List α
  | [] => [x]
  | y :: ys => if lt y x then y :: insertSorted lt x ys else x :: y :: ys

/-- Stable sort with respect to the strict comparison `lt`; extensionally
equal to Python's (stable) `sorted`/`list.sort` for any total preorder. -/
def stableSortBy (lt : α → α → Bool) : List α → List α
  | [] => []
  | x :: xs => insertSorted lt x (stableSortBy lt xs)

/-! ### Association lists with Python `dict` semantics -/

/-- Python `m[k]` lookup in an insertion-ordered association list. -/
def lookupA (k : String) : List (String × β) → Option β
  | [] => none
  | (k', v) :: rest => if k' = k then some v else lookupA k rest

/-- Update the value stored at an existing key, leaving order unchanged. -/
def updateA (k : String) (f : β → β) : List (String × β) → List (String × β)
  | [] => []
  | (k', v) :: rest => if k' = k then (k', f v) :: rest else (k', v) :: updateA k f rest

/-- Python `defaultdict` access-and-modify: a missing key is first inserted (at the
end, as Python dicts are insertion ordered) with the default value, then the
modification is applied. -/
def upsertA (k : String) (d : β) (f : β → β) (m : List (String × β)) : List (String × β) :=
  match lookupA k m with
  | some _ => updateA k f m
  | none => m ++ [(k, f d)]

/-! ## AccountPool — `services/account_manager.py`

The persisted accounts file is modelled as the value it holds: the ordered
account list plus `current_index`.  `rate_limited_until` is stored as an ISO
string in the file; its three observable states (empty/absent, parseable,
unparseable) are the constructors of `RateLimitStamp`, with a parseable
stamp abstracted by the instant it denotes. -/

/-- The `rate_limited_until` field of an account record: `''`/absent, a
parseable ISO timestamp (abstracted by its instant), or an unparseable
string (which `datetime.fromisoformat` rejects, caught by the bare
`except`). -/
inductive RateLimitStamp
  | empty
  | stamp (t : Int)
  | bad
deriving DecidableEq, Repr

/-- One account record of the accounts file, restricted to the fields the
manager reads (`usage_count` and `last_used` default to `0`/absent via
`.get`). -/
structure Account where
  usage_count : Nat
  last_used : Option String
  rate_limited_until : RateLimitStamp
deriving DecidableEq, Repr

/-- The availability test and expired-stamp clearing performed for one
account inside the scan loop of `get_next_available_account` (lines 59-72):
returns the (possibly cleared) record when the account is available now,
`none` when it is still rate limited. -/
def availCheck (now : Int) (a : Account) : Option Account :=
  match a.rate_limited_until with
  | RateLimitStamp.empty => some a
  | RateLimitStamp.bad => some a
  | RateLimitStamp.stamp t =>
    if now > t then some { a with rate_limited_until := RateLimitStamp.empty } else none

/-- The `for i, account in enumerate(accounts)` scan collecting `(i, account)` for
every available account, starting at index `start`. -/
def availableAccountsFrom (now : Int) : Nat → List Account → List (Nat × Account)
  | _, [] => []
  | i, a :: rest =>
    match availCheck now a with
    | some a' => (i, a') :: availableAccountsFrom now (i + 1) rest
    | none => availableAccountsFrom now (i + 1) rest

/-- The `available_accounts` list built by `get_next_available_account`. -/
def availableAccounts (accounts : List Account) (now : Int) : List (Nat × Account) :=
  availableAccountsFrom now 0 accounts

/-- The two failure modes of the pool. -/
inductive PoolError
  | noAccountsConfigured
  | allAccountsRateLimited
deriving DecidableEq, Repr

/-- The exact exception messages raised by `get_next_available_account`. -/
def poolErrorMsg : PoolError → String
  | PoolError.noAccountsConfigured => "No Telegram accounts configured"
  | PoolError.allAccountsRateLimited => "All accounts are currently rate limited. Please wait."

/-- Python `AccountRotationManager.get_next_available_account` (lines 48-81): fail
on an empty pool, collect available accounts, stable-sort them by
`usage_count` and return the first. -/
def get_next_available_account (accounts : List Account) (now : Int) :
    Except PoolError (Account × Nat) :=
  if accounts.isEmpty then Except.error PoolError.noAccountsConfigured
  else if (availableAccounts accounts now).isEmpty then
    Except.error PoolError.allAccountsRateLimited
  else
    match stableSortBy (fun x y => decide (x.2.usage_count < y.2.usage_count))
        (availableAccounts accounts now) with
    | [] => Except.error PoolError.allAccountsRateLimited
    | (i, a) :: _ => Except.ok (a, i)

/-- Python `AccountRotationManager.update_account_usage` (lines 83-90).  The result
is the file content written by `save_accounts`, or `none` when the index is
out of range and no save happens.  Python's `account_index` may be any
integer, so the index is an `Int`. -/
def update_account_usage (accounts : List Account) (current_index : Nat) (account_index : Int)
    (now_iso : String) : Option (List Account × Nat) :=
  if 0 ≤ account_index ∧ account_index < accounts.length then
    some (listModify
      (fun a => { a with last_used := some now_iso, usage_count := a.usage_count + 1 })
      account_index.toNat accounts, current_index)
  else none

/-- Python `AccountRotationManager.mark_account_rate_limited` (lines 92-101), with
the same save-or-no-op result convention. -/
def mark_account_rate_limited (accounts : List Account) (current_index : Nat)
    (account_index : Int) (now : Int) (wait_seconds : Int) : Option (List Account × Nat) :=
  if 0 ≤ account_index ∧ account_index < accounts.length then
    some (listModify
      (fun a => { a with rate_limited_until := RateLimitStamp.stamp (now + wait_seconds) })
      account_index.toNat accounts, current_index)
  else none

/-! ## ExtractionService — `services/telegram_extractor.py`

The channel client (telethon) is external; an extraction attempt's outcome
is a parameter `net`, indexed by the value of `retry_count` at the attempt
so distinct attempts may behave differently.  The retry loop's observable
side effects — network attempts and `time.sleep(2)` backoffs — are recorded
in an event trace, and real time advances by 2 seconds across each sleep so
that rate-limit expiry during the backoff is representable. -/

/-- Outcome of one network attempt (`run_async(self._get_messages_async(...))`):
success with a result, a `FloodWaitError` carrying the provider wait, or any
other exception carrying its message. -/
inductive NetOutcome (ρ : Type)
  | ok (r : ρ)
  | floodWait (seconds : Int)
  | err (msg : String)

/-- Observable side effects of `get_messages`. -/
inductive ExtractEvent
  | netAttempt (accountIndex : Nat)
  | sleepTwo
deriving DecidableEq, Repr

/-- The `"not found" in error_msg or "username" in error_msg.lower()`
classification of a generic exception message (line 155). -/
def isNotFoundClass (msg : String) : Bool :=
  strContains msg "not found" || strContains (pyLower msg) "username"

/-- Mutable state threaded through the retry loop: the accounts file, the
current time (advanced by each 2-second sleep) and the event trace. -/
structure ExtractState where
  accounts : List Account
  current_index : Nat
  now : Int
  trace : List ExtractEvent
deriving Repr

/-- Apply a save-or-no-op file update (`update_account_usage` /
`mark_account_rate_limited` result) to the loop state. -/
def applySave (st : ExtractState) : Option (List Account × Nat) → ExtractState
  | none => st
  | some (accounts, ci) => { st with accounts := accounts, current_index := ci }

/-- Python `time.sleep(2)` as seen by the loop state. -/
def sleepTwoSec (st : ExtractState) : ExtractState :=
  { st with now := st.now + 2, trace := st.trace ++ [ExtractEvent.sleepTwo] }

/-- The body of `get_messages` (lines 128-167).  `remaining` is
`max_retries - retry_count`, so the `while retry_count < max_retries` guard
is `remaining = 0`; `retry_count` (needed by `net`) is `3 - remaining`. -/
def getMessagesGo (net : Nat → Account → NetOutcome ρ) (channel_username : String) :
    Nat → ExtractState → Except String ρ × ExtractState
  | 0, st => (Except.error "Failed to extract messages after all retries", st)
  | remaining + 1, st =>
    match get_next_available_account st.accounts st.now with
    | Except.error pe =>
      -- the pool's Exception is caught by the generic `except Exception` arm
      let msg := poolErrorMsg pe
      if isNotFoundClass msg then
        (Except.error ("Telegram channel '" ++ channel_username ++ "' not found."), st)
      else if remaining = 0 then
        -- retry_count + 1 == max_retries: no sleep, raise the wrapper error
        (Except.error ("Failed after 3 attempts: " ++ msg), st)
      else
        getMessagesGo net channel_username remaining (sleepTwoSec st)
    | Except.ok (account, account_index) =>
      let st := { st with trace := st.trace ++ [ExtractEvent.netAttempt account_index] }
      match net (3 - (remaining + 1)) account with
      | NetOutcome.ok r =>
        let st := applySave st
          (update_account_usage st.accounts st.current_index account_index "now")
        (Except.ok r, st)
      | NetOutcome.floodWait s =>
        let st := applySave st
          (mark_account_rate_limited st.accounts st.current_index account_index st.now s)
        getMessagesGo net channel_username remaining (sleepTwoSec st)
      | NetOutcome.err m =>
        if isNotFoundClass m then
          (Except.error ("Telegram channel '" ++ channel_username ++ "' not found."), st)
        else if remaining = 0 then
          (Except.error ("Failed after 3 attempts: " ++ m), st)
        else
          getMessagesGo net channel_username remaining (sleepTwoSec st)

/-- Python `TelegramMessageExtractor.get_messages`: three attempts starting from a
given accounts file state and instant. -/
def get_messages (net : Nat → Account → NetOutcome ρ) (channel_username : String)
    (accounts : List Account) (current_index : Nat) (now : Int) :
    Except String ρ × ExtractState :=
  getMessagesGo net channel_username 3
    { accounts := accounts, current_index := current_index, now := now, trace := [] }

/-! ### `_get_messages_since_async` (lines 223-347): incremental collection

The telethon stream is the newest-first message list the client would yield;
each raw message carries the fields the loop reads.  The sender-name
derivation (lines 267-277) combines the client's sender object fields and is
irrelevant to the timestamp claims, so the client-provided `senderName` /
`senderUsername` stand for its result.  `message.date.isoformat()` is a
parameter `enc`; the loop compares instants (`msg_date <= since_utc`) but
the final sort key is the isoformat *string* (line 308), exactly as in the
source. -/

/-- A message yielded by the channel client, newest first. -/
structure RawMsg where
  id : Nat
  date : Int
  text : String
  senderName : String
  senderUsername : Option String
  senderId : Nat
deriving DecidableEq, Repr

/-- The message dict built at lines 295-305 (the `content`/`author` aliases
duplicate `text`/`sender` and are omitted). -/
structure MsgOut where
  message_id : Nat
  text : String
  sender : String
  sender_id : Nat
  username : Option String
  timestamp_raw : String
deriving DecidableEq, Repr

/-- Build the dict for one collected message. -/
def buildMsgOut (enc : Int → String) (m : RawMsg) : MsgOut :=
  { message_id := m.id, text := m.text, sender := m.senderName, sender_id := m.senderId,
    username := m.senderUsername, timestamp_raw := enc m.date }

/-- The collection loop: stop at the first message at or before `since`
(early exit on the newest-first stream), keep messages with non-empty text. -/
def collectSince (enc : Int → String) (since : Int) : List RawMsg → List MsgOut
  | [] => []
  | m :: rest =>
    if m.date ≤ since then []
    else if m.text = "" then collectSince enc since rest
    else buildMsgOut enc m :: collectSince enc since rest

/-- The call `iter_messages(channel, limit=limit if limit else None)`: a limit of
`None` or `0` (falsy) iterates the whole history. -/
def effectiveStream (limit : Option Nat) (stream : List RawMsg) : List RawMsg :=
  match limit with
  | none => stream
  | some n => if n = 0 then stream else stream.take n

/-- The `messages` list returned by `_get_messages_since_async`: collect,
then `messages.sort(key=lambda x: x['timestamp_raw'])` — an ascending
stable sort on the isoformat string. -/
def get_messages_since_messages (enc : Int → String) (since : Int) (limit : Option Nat)
    (stream : List RawMsg) : List MsgOut :=
  stableSortBy (fun x y => strLt x.timestamp_raw y.timestamp_raw)
    (collectSince enc since (effectiveStream limit stream))

/-! ## StatisticsAggregator — `services/helper.py`

`datetime.fromisoformat` is the parameter `parseIso`, abstracting a parsed
timestamp by its observable parts: the hour (`datetime.hour`, always in
`0..23`), the weekday name (`strftime("%A")`) and the epoch instant.  The
URL regex of `extract_links` is executed by `re.findall`, an external
library call, and is the parameter `extractLinks`. -/

/-- The parts of a parsed `datetime` that `generate_message_statistics`
reads. -/
structure PyDateTime where
  hour : Fin 24
  weekdayName : String
  epoch : Int
deriving DecidableEq, Repr

/-- One value of `trigger_frequency`. -/
structure TriggerData where
  count : Nat
  message_ids : List Nat
deriving DecidableEq, Repr

/-- One entry of `user_frequency` / `temp_users` (keyed by `username`). -/
structure StatsUser where
  displayName : String
  username : String
  messageCount : Nat
deriving DecidableEq, Repr

/-- One entry of `links`. -/
structure LinkEntry where
  message_id : Nat
  links : List String
deriving DecidableEq, Repr

/-- A message dict as consumed by `generate_message_statistics`
(`timestamp_raw` and `message_id` are accessed with `[]` and required;
the rest is accessed with `.get`). -/
structure StatMessage where
  timestamp_raw : String
  message_id : Nat
  username : Option String
  first_name : Option String
  last_name : Option String
  text : Option String
deriving DecidableEq, Repr

/-- The dict returned by `generate_message_statistics` (helper.py lines
81-87) and consumed/produced by `merge_message_statistics`. -/
structure StatsReport where
  trigger_frequency : List (String × TriggerData)
  frequency_hourly : List Nat
  frequency_weekday : List (String × Nat)
  user_frequency : List StatsUser
  links : List LinkEntry
deriving DecidableEq, Repr

/-- The keys of the dict literal returned by `generate_message_statistics`
(helper.py lines 81-87): the full set of keys a report carries. -/
def generate_message_statistics_keys : List String :=
  ["trigger_frequency", "frequency_hourly", "frequency_weekday", "user_frequency", "links"]

/-- The comprehension `\x7bword: \x7b'count': 0, 'message_ids': []\x7d for word in trigger_words\x7d` —
a dict comprehension: a repeated word re-assigns the same initial value at
its first position, so duplicates collapse keeping first occurrence. -/
def initTrigger (trigger_words : List String) : List (String × TriggerData) :=
  trigger_words.foldl
    (fun m w =>
      match lookupA w m with
      | some _ => m
      | none => m ++ [(w, ⟨0, []⟩)]) []

/-- The per-trigger-word test and update inside the message loop (lines
49-53): a case-sensitive substring test, then increment and append. -/
def bumpTrigger (message_id : Nat) (text : String)
    (tf : List (String × TriggerData)) (word : String) : List (String × TriggerData) :=
  if strContains text word then
    updateA word (fun t => ⟨t.count + 1, t.message_ids ++ [message_id]⟩) tf
  else tf

/-- First entry with the given `username` (dict lookup into `temp_users` /
`frequency_user`, whose key is the username stored in the entry). -/
def userLookup (u : String) : List StatsUser → Option StatsUser
  | [] => none
  | x :: rest => if x.username = u then some x else userLookup u rest

/-- Update the entry keyed by `username`, preserving order. -/
def userUpdate (u : String) (f : StatsUser → StatsUser) : List StatsUser → List StatsUser
  | [] => []
  | x :: rest => if x.username = u then f x :: rest else x :: userUpdate u f rest

/-- The `frequency_user[username]` defaultdict update of lines 44-46: the
display name is overwritten, the count incremented (from the default 0 for
a fresh username). -/
def bumpUser (display_name username : String) (l : List StatsUser) : List StatsUser :=
  match userLookup username l with
  | some _ => userUpdate username (fun old => ⟨display_name, username, old.messageCount + 1⟩) l
  | none => l ++ [⟨display_name, username, 1⟩]

/-- Descending stable sort by `messageCount` — `sorted(..., key=lambda x:
x["messageCount"], reverse=True)`, which keeps ties in original order. -/
def sortUsersDesc : List StatsUser → List StatsUser :=
  stableSortBy (fun a b => decide (b.messageCount < a.messageCount))

/-- The body of the `for message in messages` loop (lines 22-65).  A parse
failure on `timestamp_raw` (the first statement of the `try`) skips the
whole message; with all remaining fields well-typed no later statement of
the `try` block can raise.  The locals `is_important` and `message_part`
are computed by the source but never escape the loop iteration:
`is_important` is dead (nothing reads it) and `message_part` only supplies
`message_id`. -/
def genStep (parseIso : String → Option PyDateTime) (extractLinks : String → List String)
    (trigger_words : List String) (st : StatsReport) (message : StatMessage) : StatsReport :=
  match parseIso message.timestamp_raw with
  | none => st
  | some time =>
    let frequency_hourly := listModify (· + 1) time.hour.val st.frequency_hourly
    let frequency_weekday := upsertA (pyLower time.weekdayName) 0 (· + 1) st.frequency_weekday
    let username := pyOrStr message.username "null"
    let first_name := pyOrStr message.first_name ""
    let last_name := pyOrStr message.last_name ""
    let display_name :=
      let dn := pyStrip (first_name ++ " " ++ last_name)
      if dn = "" then username else dn
    let text := pyOrStr message.text ""
    let user_frequency := bumpUser display_name username st.user_frequency
    let trigger_frequency := trigger_words.foldl (bumpTrigger message.message_id text) st.trigger_frequency
    let extracted_links := extractLinks text
    let links :=
      if extracted_links.isEmpty then st.links
      else st.links ++ [⟨message.message_id, extracted_links⟩]
    ⟨trigger_frequency, frequency_hourly, frequency_weekday, user_frequency, links⟩

/-- Python `generate_message_statistics(messages, trigger_words)` (lines 15-87). -/
def generate_message_statistics (parseIso : String → Option PyDateTime)
    (extractLinks : String → List String) (messages : List StatMessage)
    (trigger_words : List String) : StatsReport :=
  let st := messages.foldl (genStep parseIso extractLinks trigger_words)
    ⟨initTrigger trigger_words, List.replicate 24 0, [], [], []⟩
  { st with user_frequency := sortUsersDesc st.user_frequency }

/-! ### `merge_message_statistics` (lines 90-141) -/

/-- Merge one `trigger_frequency` entry into the accumulating dict
(lines 96-100). -/
def mergeTriggerEntry (m : List (String × TriggerData)) (kv : String × TriggerData) :
    List (String × TriggerData) :=
  upsertA kv.1 ⟨0, []⟩ (fun t => ⟨t.count + kv.2.count, t.message_ids ++ kv.2.message_ids⟩) m

/-- Fold a whole `trigger_frequency` dict into the accumulator. -/
def mergeTriggerInto (m s : List (String × TriggerData)) : List (String × TriggerData) :=
  s.foldl mergeTriggerEntry m

/-- The loop `for i, count in enumerate(stats): merged['frequency_hourly'][i] += count`
(lines 104-106), as a structural zip: sequential writes at distinct indices.
Python raises `IndexError` when `stats` is longer than the accumulator;
the model drops the excess instead, and every report in the theorems below
carries the invariant 24-slot histogram, where the two agree. -/
def addHourly : List Nat → List Nat → List Nat
  | base, [] => base
  | [], _ :: _ => []
  | b :: bs, c :: cs => (b + c) :: addHourly bs cs

/-- Merge one weekday dict into the accumulator (lines 110-112). -/
def mergeWeekdayInto (m s : List (String × Nat)) : List (String × Nat) :=
  s.foldl (fun acc kv => upsertA kv.1 0 (· + kv.2) acc) m

/-- The `temp_users` update for one incoming user entry (lines 117-121): the
display name is overwritten (later write wins), the count added. -/
def mergeUserEntry (m : List StatsUser) (u : StatsUser) : List StatsUser :=
  match userLookup u.username m with
  | some _ =>
    userUpdate u.username
      (fun old => ⟨u.displayName, u.username, old.messageCount + u.messageCount⟩) m
  | none => m ++ [⟨u.displayName, u.username, u.messageCount⟩]

/-- Fold a whole `user_frequency` list into `temp_users`. -/
def mergeUsersInto (m s : List StatsUser) : List StatsUser :=
  s.foldl mergeUserEntry m

/-- Python `merge_message_statistics(stats1, stats2)` (lines 90-141). -/
def merge_message_statistics (stats1 stats2 : StatsReport) : StatsReport :=
  { trigger_frequency :=
      mergeTriggerInto (mergeTriggerInto [] stats1.trigger_frequency) stats2.trigger_frequency,
    frequency_hourly :=
      addHourly (addHourly (List.replicate 24 0) stats1.frequency_hourly) stats2.frequency_hourly,
    frequency_weekday :=
      mergeWeekdayInto (mergeWeekdayInto [] stats1.frequency_weekday) stats2.frequency_weekday,
    user_frequency :=
      sortUsersDesc (mergeUsersInto (mergeUsersInto [] stats1.user_frequency) stats2.user_frequency),
    links := stats1.links ++ stats2.links }

/-- All message ids recorded in a report (trigger id lists and link
entries), for the "disjoint message id sets" precondition. -/
def reportMessageIds (r : StatsReport) : List Nat :=
  (r.trigger_frequency.map (fun kv => kv.2.message_ids)).flatten ++
    r.links.map (fun e => e.message_id)

/-! ## SummarizationPipeline — `services/gpt_summerizer.py`

The OpenAI client is external: a completion call either returns text or
raises, modelled by the parameter `complete`; every call a function issues
is also returned in order, so call counts are provable.  A prompt f-string
is modelled by the data it interpolates (a `PromptData` value); the token
estimator `_count_tokens` (tiktoken with a 4-chars-per-token fallback) is
the parameter `countTokens`.  The `Z`-suffix cleanup, `fromisoformat` and
`strftime('%Y-%m-%d')` of `_group_messages_by_period` together are the
parameter `dayOf` (`none` = parse failure, logged and skipped). -/

/-- A message dict as consumed by the summarizer (all fields are accessed
with `.get`, so each may be missing). -/
structure ChMsg where
  timestamp_raw : Option String
  timestamp : Option String
  sender : Option String
  text : Option String
deriving DecidableEq, Repr

/-- Python `GPTSummarizer._group_messages_by_period` (lines 628-649): key each
message by calendar day, skipping messages with a missing/empty/unparseable
timestamp; insertion-ordered dict of lists. -/
def groupByPeriod (dayOf : String → Option String) (messages : List ChMsg) :
    List (String × List ChMsg) :=
  messages.foldl
    (fun periods msg =>
      let timestamp_str := msg.timestamp_raw.getD (msg.timestamp.getD "")
      if timestamp_str = "" then periods
      else
        match dayOf timestamp_str with
        | none => periods
        | some period_key => upsertA period_key [] (fun l => l ++ [msg]) periods) []

/-- A chunk under construction / emitted by `_create_smart_chunks`. -/
structure Chunk where
  messages : List ChMsg
  users : List (String × Nat)
  start_date : Option String
  end_date : Option String
deriving DecidableEq, Repr

/-- The fresh chunk dict of lines 384-389 / 397-402. -/
def emptyChunk : Chunk := ⟨[], [], none, none⟩

/-- Lines 404-413: extend the current chunk with one whole day.  The
`if not current_chunk['start_date']` falsy test also treats `''` as unset;
a day key (from `strftime('%Y-%m-%d')`) is never empty. -/
def addDayToChunk (c : Chunk) (date : String) (day_messages : List ChMsg) : Chunk :=
  { messages := c.messages ++ day_messages,
    start_date := some (match c.start_date with
      | none => date
      | some s => if s = "" then date else s),
    end_date := some date,
    users := day_messages.foldl
      (fun us m => upsertA (m.sender.getD "Unknown") 0 (· + 1) us) c.users }

/-- The `for date in sorted(periods.keys())` loop of lines 391-417,
carrying the current chunk. -/
def chunksAux (max_chunk_size : Nat) :
    List (String × List ChMsg) → Chunk → List Chunk
  | [], cur => if cur.messages.isEmpty then [] else [cur]
  | (date, day_messages) :: rest, cur =>
    if cur.messages ≠ [] ∧ max_chunk_size < cur.messages.length + day_messages.length then
      cur :: chunksAux max_chunk_size rest (addDayToChunk emptyChunk date day_messages)
    else
      chunksAux max_chunk_size rest (addDayToChunk cur date day_messages)

/-- The day groups in the order the chunking loop visits them:
`sorted(periods.keys())` with `day_messages = periods[date]`. -/
def sortedDayGroups (dayOf : String → Option String) (messages : List ChMsg) :
    List (String × List ChMsg) :=
  let periods := groupByPeriod dayOf messages
  (stableSortBy strLt (periods.map Prod.fst)).map
    (fun date => (date, (lookupA date periods).getD []))

/-- Python `GPTSummarizer._create_smart_chunks` (lines 377-419). -/
def _create_smart_chunks (dayOf : String → Option String) (messages : List ChMsg)
    (max_chunk_size : Nat) : List Chunk :=
  chunksAux max_chunk_size (sortedDayGroups dayOf messages) emptyChunk

/-- One `daily_summary` dict of the Medium first pass (lines 185-192). -/
structure DaySummary where
  date : String
  message_count : Nat
  unique_users : Nat
  top_users : List (String × Nat)
  sample_topics : List String
  messages_sample : List ChMsg
deriving DecidableEq, Repr

/-- The per-day digest extraction of lines 169-192: local computation
only — no completion call can occur here. -/
def daySummaryOf (date : String) (day_messages : List ChMsg) : DaySummary :=
  let user_activity := day_messages.foldl
    (fun ua m => upsertA (m.sender.getD "Unknown") 0 (· + 1) ua) []
  let topics := day_messages.foldl
    (fun ts m =>
      let text := (m.text.getD "")
      if 50 < text.length then ts ++ [strTake 200 text] else ts) []
  let top_users_day := (stableSortBy (fun a b => decide (b.2 < a.2)) user_activity).take 5
  ⟨date, day_messages.length, user_activity.length, top_users_day,
    topics.take 5, day_messages.take 10⟩

/-- The `daily_summaries` list of the Medium first pass (lines 161-194).
`sorted(time_periods.items())` orders pairs by their (distinct) keys; the
`len(day_messages) == 0` guard of line 166 skips empty groups. -/
def dailySummariesOf (dayOf : String → Option String) (messages : List ChMsg) :
    List DaySummary :=
  let items := stableSortBy (fun a b => strLt a.1 b.1) (groupByPeriod dayOf messages)
  (items.filter (fun p => ¬ p.2.isEmpty)).map (fun p => daySummaryOf p.1 p.2)

/-- One formatted day entry of `summaries_text` (lines 231-243). -/
structure DayDigestText where
  date : String
  message_count : Nat
  unique_users : Nat
  topUsersShown : List (String × Nat)
  topicsPreview : List String
deriving DecidableEq, Repr

/-- Format one day digest for the synthesis prompt: top 3 users, and up to
3 topic snippets truncated to 50 characters. -/
def dayDigestTextOf (s : DaySummary) : DayDigestText :=
  ⟨s.date, s.message_count, s.unique_users, s.top_users.take 3,
    (s.sample_topics.take 3).map (fun t => strTake 50 t ++ "...")⟩

/-- The data interpolated into the Medium synthesis f-string (lines
252-283).  The float `avg_messages_per_day` is `total_messages /
total_days`, determined by two fields already present, and is omitted. -/
structure MediumPrompt where
  channel_name : String
  total_messages : Nat
  period_start : String
  period_end : String
  total_days : Nat
  most_active_days : List (String × Nat)
  summariesShown : List DayDigestText
  language_instruction : String
deriving DecidableEq, Repr

/-- Python `GPTSummarizer._create_medium_synthesis_prompt` (lines 222-283).  The
f-string reads `daily_summaries[0]` and `daily_summaries[-1]`, raising
`IndexError` on an empty list. -/
def _create_medium_synthesis_prompt (channel_name : String) (total_messages : Nat)
    (daily_summaries : List DaySummary) (language_english language_native : String) :
    Except String MediumPrompt :=
  let language_instruction :=
    if pyLower language_english = "english" then ""
    else "Provide the summary in " ++ language_english ++ " (" ++ language_native ++ ")."
  let summariesShown := (pyTakeLast 20 daily_summaries).map dayDigestTextOf
  let most_active_days :=
    (stableSortBy (fun a b => decide (b.message_count < a.message_count)) daily_summaries).take 5
  match daily_summaries.head?, daily_summaries.getLast? with
  | some first, some last =>
    Except.ok
      ⟨channel_name, total_messages, first.date, last.date, daily_summaries.length,
        most_active_days.map (fun d => (d.date, d.message_count)),
        summariesShown, language_instruction⟩
  | _, _ => Except.error "IndexError: list index out of range"

/-- Prompts, modelled by the data each f-string interpolates (coarsely for
the Small and Large tiers, whose wording no claim inspects). -/
inductive PromptData
  | smallPrompt (channel_name : String) (total : Nat) (num_periods : Nat)
      (language_instruction : String)
  | mediumSynthesis (p : MediumPrompt)
  | chunkPrompt (channel_name : String) (start_date end_date : Option String)
      (message_count : Nat) (unique_users : Nat)
  | largeSynthesis (channel_name : String) (total : Nat) (num_chunks : Nat)
      (language_instruction : String)
  | largeCompressed (channel_name : String) (total : Nat) (num_chunks : Nat)
      (language_instruction : String)
deriving DecidableEq, Repr

/-- One `chat.completions.create` request. -/
structure CompletionCall where
  model : String
  max_tokens : Nat
  prompt : PromptData
deriving DecidableEq, Repr

/-- One `SUPPORTED_LANGUAGES` entry (config.py). -/
structure LangInfo where
  english : String
  native : String
deriving DecidableEq, Repr

/-- Python `config.SUPPORTED_LANGUAGES` (config.py lines 32-54). -/
def supportedLanguages : List (String × LangInfo) :=
  [("english", ⟨"English", "English"⟩), ("hindi", ⟨"Hindi", "हिन्दी"⟩),
   ("bengali", ⟨"Bengali", "বাংলা"⟩), ("telugu", ⟨"Telugu", "తెలుగు"⟩),
   ("marathi", ⟨"Marathi", "मराठी"⟩), ("tamil", ⟨"Tamil", "தமிழ்"⟩),
   ("gujarati", ⟨"Gujarati", "ગુજરાતી"⟩), ("urdu", ⟨"Urdu", "اردو"⟩),
   ("kannada", ⟨"Kannada", "ಕನ್ನಡ"⟩), ("odia", ⟨"Odia", "ଓଡ଼ିଆ"⟩),
   ("malayalam", ⟨"Malayalam", "മലയാളം"⟩), ("punjabi", ⟨"Punjabi", "ਪੰਜਾਬੀ"⟩),
   ("assamese", ⟨"Assamese", "অসমীয়া"⟩), ("maithili", ⟨"Maithili", "मैथिली"⟩),
   ("santali", ⟨"Santali", "ᱥᱟᱱᱛᱟᱲᱤ"⟩), ("konkani", ⟨"Konkani", "कोंकणी"⟩),
   ("sindhi", ⟨"Sindhi", "سنڌي"⟩), ("dogri", ⟨"Dogri", "डोगरी"⟩),
   ("kashmiri", ⟨"Kashmiri", "کٲشُر"⟩), ("sanskrit", ⟨"Sanskrit", "संस्कृतम्"⟩),
   ("nepali", ⟨"Nepali", "नेपाली"⟩)]

/-- The language instruction appended to the Small-tier prompt (line 136)
and, in its Large-tier variants, lines 499-501 / 544-546. -/
def languageInstructionFor (info : LangInfo) : String :=
  if pyLower info.english = "english" then ""
  else "Provide the summary in " ++ info.english ++ " (" ++ info.native ++ ")."

/-- Python `GPTSummarizer._summarize_small_dataset` (lines 113-155): one prompt
from the day groups plus a capped raw-message sample, one completion. -/
def _summarize_small_dataset (complete : CompletionCall → Except String String)
    (dayOf : String → Option String) (messages : List ChMsg) (channel_name : String)
    (language_info : LangInfo) : Except String String × List CompletionCall :=
  let time_periods := groupByPeriod dayOf messages
  let call : CompletionCall :=
    ⟨"gpt-3.5-turbo", 2000,
      PromptData.smallPrompt channel_name messages.length time_periods.length
        (languageInstructionFor language_info)⟩
  (match complete call with
   | Except.ok s => Except.ok (pyStrip s)
   | Except.error e => Except.error e, [call])

/-- Python `GPTSummarizer._summarize_medium_dataset` (lines 157-220): a local
first pass building `daily_summaries`, then exactly one synthesis
completion. -/
def _summarize_medium_dataset (complete : CompletionCall → Except String String)
    (dayOf : String → Option String) (messages : List ChMsg) (channel_name : String)
    (language_info : LangInfo) : Except String String × List CompletionCall :=
  let daily_summaries := dailySummariesOf dayOf messages
  match _create_medium_synthesis_prompt channel_name messages.length daily_summaries
      language_info.english language_info.native with
  | Except.error e => (Except.error e, [])
  | Except.ok p =>
    let call : CompletionCall := ⟨"gpt-4o-mini", 3000, PromptData.mediumSynthesis p⟩
    (match complete call with
     | Except.ok s => Except.ok (pyStrip s)
     | Except.error e => Except.error e, [call])

/-- Python `GPTSummarizer._summarize_large_dataset` (lines 285-375): one
completion per chunk (a failing chunk is logged and dropped), then one
final synthesis, compressed when the estimated token count exceeds
100,000.  `_create_synthesis_prompt` reads `chunk_summaries[0]` and `[-1]`
and raises `IndexError` when every chunk failed or none exist. -/
def _summarize_large_dataset (complete : CompletionCall → Except String String)
    (countTokens : PromptData → Nat) (dayOf : String → Option String)
    (messages : List ChMsg) (channel_name : String) (language_info : LangInfo) :
    Except String String × List CompletionCall :=
  let chunks := _create_smart_chunks dayOf messages 2000
  let step := fun (st : List CompletionCall × List String) (c : Chunk) =>
    let call : CompletionCall :=
      ⟨"gpt-4o-mini", 800,
        PromptData.chunkPrompt channel_name c.start_date c.end_date
          c.messages.length c.users.length⟩
    match complete call with
    | Except.ok s => (st.1 ++ [call], st.2 ++ [pyStrip s])
    | Except.error _ => (st.1 ++ [call], st.2)
  let folded := chunks.foldl step ([], [])
  let calls := folded.1
  let chunk_summaries := folded.2
  if chunk_summaries.isEmpty then
    (Except.error "IndexError: list index out of range", calls)
  else
    let lang := languageInstructionFor language_info
    let full := PromptData.largeSynthesis channel_name messages.length chunk_summaries.length lang
    let final_prompt :=
      if 100000 < countTokens full then
        PromptData.largeCompressed channel_name messages.length chunk_summaries.length lang
      else full
    let final_call : CompletionCall := ⟨"gpt-4o", 4000, final_prompt⟩
    (match complete final_call with
     | Except.ok s => Except.ok (pyStrip s)
     | Except.error e => Except.error e, calls ++ [final_call])

/-- Python `GPTSummarizer.summarize_combined_messages` (lines 79-102): language
lookup with English fallback, then tier dispatch on the message count; the
surrounding `try` logs and re-raises, leaving the outcome unchanged. -/
def summarize_combined_messages (complete : CompletionCall → Except String String)
    (countTokens : PromptData → Nat) (dayOf : String → Option String)
    (all_messages : List ChMsg) (channel_name : String) (response_language : String) :
    Except String String × List CompletionCall :=
  let language_info :=
    (lookupA (pyLower response_language) supportedLanguages).getD ⟨"English", "English"⟩
  if all_messages.length < 1000 then
    _summarize_small_dataset complete dayOf all_messages channel_name language_info
  else if all_messages.length < 10000 then
    _summarize_medium_dataset complete dayOf all_messages channel_name language_info
  else
    _summarize_large_dataset complete countTokens dayOf all_messages channel_name language_info

/-! ## Verification infrastructure: order facts and sort lemmas -/

theorem charListLt_asymm : ∀ a b, charListLt a b = true → charListLt b a = false := by
  intro a
  induction a with
  | nil =>
    intro b h
    cases b with
    | nil => simp [charListLt] at h
    | cons y ys => simp [charListLt]
  | cons x xs ih =>
    intro b h
    cases b with
    | nil => simp [charListLt] at h
    | cons y ys =>
      simp only [charListLt] at h ⊢
      split_ifs at h ⊢ <;> first
        | rfl
        | omega
        | exact ih ys h

theorem charListLt_negtrans :
    ∀ a b c, charListLt a b = false → charListLt b c = false → charListLt a c = false := by
  intro a
  induction a with
  | nil =>
    intro b c hab hbc
    cases b with
    | nil =>
      cases c with
      | nil => rfl
      | cons z zs => simp [charListLt] at hbc
    | cons y ys => simp [charListLt] at hab
  | cons x xs ih =>
    intro b c hab hbc
    cases b with
    | nil =>
      cases c with
      | nil => rfl
      | cons z zs => simp [charListLt] at hbc
    | cons y ys =>
      cases c with
      | nil => rfl
      | cons z zs =>
        simp only [charListLt] at hab hbc ⊢
        split_ifs at hab hbc ⊢ <;> first
          | rfl
          | omega
          | exact ih ys zs hab hbc

theorem strLt_asymm (a b : String) (h : strLt a b = true) : strLt b a = false :=
  charListLt_asymm _ _ h

theorem strLt_negtrans (a b c : String) (hab : strLt a b = false) (hbc : strLt b c = false) :
    strLt a c = false :=
  charListLt_negtrans _ _ _ hab hbc

theorem insertSorted_perm (lt : α → α → Bool) (x : α) (l : List α) :
    (insertSorted lt x l).Perm (x :: l) := by
  induction l with
  | nil => exact List.Perm.refl _
  | cons y ys ih =>
    simp only [insertSorted]
    split_ifs with h
    · exact List.Perm.trans (List.Perm.cons y ih) (List.Perm.swap x y ys)
    · exact List.Perm.refl _

theorem stableSortBy_perm (lt : α → α → Bool) (l : List α) :
    (stableSortBy lt l).Perm l := by
  induction l with
  | nil => exact List.Perm.refl _
  | cons x xs ih =>
    exact List.Perm.trans (insertSorted_perm lt x (stableSortBy lt xs)) (List.Perm.cons x ih)

theorem stableSortBy_length (lt : α → α → Bool) (l : List α) :
    (stableSortBy lt l).length = l.length :=
  (stableSortBy_perm lt l).length_eq

theorem stableSortBy_mem (lt : α → α → Bool) (l : List α) (x : α) :
    x ∈ stableSortBy lt l ↔ x ∈ l :=
  (stableSortBy_perm lt l).mem_iff

/-- The head of the stable sort is minimal: nothing in the list is strictly
below it. -/
theorem stableSortBy_head_min (lt : α → α → Bool)
    (hasym : ∀ a b, lt a b = true → lt b a = false)
    (hneg : ∀ a b c, lt a b = false → lt b c = false → lt a c = false)
    (l : List α) (x : α) (rest : List α) (h : stableSortBy lt l = x :: rest) :
    ∀ y ∈ l, lt y x = false := by
  have hirr : ∀ a, lt a a = false := by
    intro a
    cases ha : lt a a with
    | false => rfl
    | true => exact ha.symm.trans (hasym a a ha)
  induction l generalizing x rest with
  | nil => simp [stableSortBy] at h
  | cons a l ih =>
    simp only [stableSortBy] at h
    cases hs : stableSortBy lt l with
    | nil =>
      have hl : l = [] := by
        have := stableSortBy_length lt l
        rw [hs] at this
        exact List.length_eq_zero.mp this.symm
      subst hl
      rw [hs] at h
      simp only [insertSorted] at h
      injection h with h1 h2
      subst x
      intro y hy
      simp only [List.mem_singleton] at hy
      subst hy
      exact hirr _
    | cons b r =>
      rw [hs] at h
      simp only [insertSorted] at h
      split_ifs at h with hba
      · injection h with h1 h2
        subst x
        intro y hy
        rcases List.mem_cons.mp hy with rfl | hy
        · exact hasym _ _ hba
        · exact ih b r hs y hy
      · injection h with h1 h2
        subst x
        intro y hy
        rcases List.mem_cons.mp hy with rfl | hy
        · exact hirr _
        · have hyb : lt y b = false := ih b r hs y hy
          have hba2 : lt b a = false := by
            cases hv : lt b a with
            | false => rfl
            | true => exact absurd hv hba
          exact hneg y b a hyb hba2

/-- Stability of the head: everything originally before the chosen head is
strictly above it. -/
theorem stableSortBy_head_stable (lt : α → α → Bool) (l : List α) (x : α) (rest : List α)
    (h : stableSortBy lt l = x :: rest) :
    ∃ l1 l2, l = l1 ++ x :: l2 ∧ ∀ y ∈ l1, lt x y = true := by
  induction l generalizing x rest with
  | nil => simp [stableSortBy] at h
  | cons a l ih =>
    simp only [stableSortBy] at h
    cases hs : stableSortBy lt l with
    | nil =>
      have hl : l = [] := by
        have := stableSortBy_length lt l
        rw [hs] at this
        exact List.length_eq_zero.mp this.symm
      subst hl
      rw [hs] at h
      simp only [insertSorted] at h
      injection h with h1 h2
      subst x
      exact ⟨[], [], rfl, by simp⟩
    | cons b r =>
      rw [hs] at h
      simp only [insertSorted] at h
      split_ifs at h with hba
      · injection h with h1 h2
        subst x
        obtain ⟨m1, m2, hl, hm⟩ := ih b r hs
        refine ⟨a :: m1, m2, by simp [hl], ?_⟩
        intro y hy
        rcases List.mem_cons.mp hy with rfl | hy
        · exact hba
        · exact hm y hy
      · injection h with h1 h2
        subst x
        exact ⟨[], l, rfl, by simp⟩

/-- Inserting into a sorted list keeps it sorted. -/
theorem insertSorted_pairwise (lt : α → α → Bool)
    (hasym : ∀ a b, lt a b = true → lt b a = false)
    (hneg : ∀ a b c, lt a b = false → lt b c = false → lt a c = false)
    (x : α) (s : List α) (hs : List.Pairwise (fun a b => lt b a = false) s) :
    List.Pairwise (fun a b => lt b a = false) (insertSorted lt x s) := by
  induction s with
  | nil => simp [insertSorted]
  | cons y ys ih =>
    rcases List.pairwise_cons.mp hs with ⟨hy, hys⟩
    simp only [insertSorted]
    split_ifs with hyx
    · refine List.pairwise_cons.mpr ⟨?_, ih hys⟩
      intro z hz
      rcases List.mem_cons.mp ((insertSorted_perm lt x ys).mem_iff.mp hz) with rfl | hzys
      · exact hasym _ _ hyx
      · exact hy z hzys
    · refine List.pairwise_cons.mpr ⟨?_, hs⟩
      intro z hz
      have hyx2 : lt y x = false := by
        cases hv : lt y x with
        | false => rfl
        | true => exact absurd hv hyx
      rcases List.mem_cons.mp hz with rfl | hzys
      · exact hyx2
      · exact hneg z y x (hy z hzys) hyx2

/-- The stable sort is sorted: no later element is strictly below an
earlier one. -/
theorem stableSortBy_pairwise (lt : α → α → Bool)
    (hasym : ∀ a b, lt a b = true → lt b a = false)
    (hneg : ∀ a b c, lt a b = false → lt b c = false → lt a c = false)
    (l : List α) :
    List.Pairwise (fun a b => lt b a = false) (stableSortBy lt l) := by
  induction l with
  | nil => simp [stableSortBy]
  | cons x xs ih => exact insertSorted_pairwise lt hasym hneg x _ ih

/-! ## Verification infrastructure: list update and association-list lemmas -/

theorem listModify_length (f : α → α) (i : Nat) (l : List α) :
    (listModify f i l).length = l.length := by
  induction l generalizing i with
  | nil => cases i <;> rfl
  | cons x xs ih =>
    cases i with
    | zero => rfl
    | succ n => simp [listModify, ih]

theorem listModify_sum_succ (i : Nat) (l : List Nat) (h : i < l.length) :
    (listModify (· + 1) i l).sum = l.sum + 1 := by
  induction l generalizing i with
  | nil => simp at h
  | cons x xs ih =>
    cases i with
    | zero =>
      simp only [listModify, List.sum_cons]
      omega
    | succ n =>
      have hn : n < xs.length := by simpa using h
      simp only [listModify, List.sum_cons, ih n hn]
      omega

theorem addHourly_get? (b s : List Nat) (i : Nat) :
    (addHourly b s)[i]? = (b[i]?).map (fun x => x + ((s[i]?).getD 0)) := by
  induction b generalizing s i with
  | nil =>
    cases s with
    | nil => simp [addHourly]
    | cons c cs => simp [addHourly]
  | cons x bs ih =>
    cases s with
    | nil =>
      cases i with
      | zero => simp [addHourly]
      | succ n => simp [addHourly]
    | cons c cs =>
      cases i with
      | zero => simp [addHourly]
      | succ n => simpa [addHourly] using ih cs n

theorem addHourly_length (b s : List Nat) : (addHourly b s).length = b.length := by
  induction b generalizing s with
  | nil => cases s <;> rfl
  | cons x bs ih =>
    cases s with
    | nil => rfl
    | cons c cs => simp [addHourly, ih]

theorem lookupA_append (k : String) (m1 m2 : List (String × β)) :
    lookupA k (m1 ++ m2) = (lookupA k m1).elim (lookupA k m2) some := by
  induction m1 with
  | nil => simp [lookupA]
  | cons kv rest ih =>
    obtain ⟨kk, v⟩ := kv
    simp only [List.cons_append, lookupA]
    split_ifs with h
    · rfl
    · exact ih

theorem lookupA_updateA (k kk : String) (f : β → β) (m : List (String × β)) :
    lookupA k (updateA kk f m) = if kk = k then (lookupA k m).map f else lookupA k m := by
  induction m with
  | nil => simp [updateA, lookupA]
  | cons kv rest ih =>
    obtain ⟨kh, v⟩ := kv
    by_cases h1 : kh = kk
    · subst h1
      simp only [updateA, if_pos rfl, lookupA]
      by_cases h2 : kh = k
      · subst h2
        simp [lookupA]
      · simp [h2, lookupA]
    · simp only [updateA, if_neg h1, lookupA]
      by_cases h2 : kh = k
      · subst h2
        have hkk : ¬ kk = kh := fun he => h1 he.symm
        simp [hkk]
      · simp [h2, ih]

theorem lookupA_upsertA (k kk : String) (d : β) (f : β → β) (m : List (String × β)) :
    lookupA k (upsertA kk d f m) =
      if kk = k then some (f ((lookupA k m).getD d)) else lookupA k m := by
  unfold upsertA
  cases hm : lookupA kk m with
  | some v =>
    rw [lookupA_updateA]
    by_cases h : kk = k
    · subst h
      simp [hm]
    · simp [h]
  | none =>
    rw [lookupA_append]
    by_cases h : kk = k
    · subst h
      rw [hm]
      simp [lookupA]
    · cases hkm : lookupA k m <;> simp [lookupA, h, hkm]

theorem lookupA_eq_none_iff (k : String) (m : List (String × β)) :
    lookupA k m = none ↔ k ∉ m.map Prod.fst := by
  induction m with
  | nil => simp [lookupA]
  | cons kv rest ih =>
    obtain ⟨kh, v⟩ := kv
    simp only [lookupA, List.map_cons, List.mem_cons]
    split_ifs with h
    · subst h
      simp
    · simp only [ih]
      constructor
      · intro hnot hor
        rcases hor with he | hmem
        · exact h he.symm
        · exact hnot hmem
      · intro hnot hmem
        exact hnot (Or.inr hmem)

theorem keysA_updateA (kk : String) (f : β → β) (m : List (String × β)) :
    (updateA kk f m).map Prod.fst = m.map Prod.fst := by
  induction m with
  | nil => rfl
  | cons kv rest ih =>
    obtain ⟨kh, v⟩ := kv
    simp only [updateA]
    split_ifs with h <;> simp [ih]

theorem nodupKeys_upsertA (kk : String) (d : β) (f : β → β) (m : List (String × β))
    (h : (m.map Prod.fst).Nodup) : ((upsertA kk d f m).map Prod.fst).Nodup := by
  unfold upsertA
  cases hm : lookupA kk m with
  | some v => rw [keysA_updateA]; exact h
  | none =>
    have hk : kk ∉ m.map Prod.fst := (lookupA_eq_none_iff kk m).mp hm
    simp only [List.map_append, List.map_cons, List.map_nil]
    simp [List.nodup_append, h, hk]

/-! ## Verification infrastructure: the generic Python dict-merge pattern -/

/-- The common shape of the dict-merging loops of
`merge_message_statistics`: fold entries of `s` into accumulator `m`,
combining values at equal keys with `comb` starting from the default `d`. -/
def mergeIntoA (comb : β → β → β) (d : β) (m s : List (String × β)) : List (String × β) :=
  s.foldl (fun acc kv => upsertA kv.1 d (fun old => comb old kv.2) acc) m

theorem mergeTriggerInto_eq (m s : List (String × TriggerData)) :
    mergeTriggerInto m s =
      mergeIntoA (fun t v => ⟨t.count + v.count, t.message_ids ++ v.message_ids⟩) ⟨0, []⟩ m s :=
  rfl

theorem mergeWeekdayInto_eq (m s : List (String × Nat)) :
    mergeWeekdayInto m s = mergeIntoA (fun a b => a + b) 0 m s :=
  rfl

theorem mergeIntoA_append (comb : β → β → β) (d : β) (m s t : List (String × β)) :
    mergeIntoA comb d m (s ++ t) = mergeIntoA comb d (mergeIntoA comb d m s) t := by
  simp [mergeIntoA, List.foldl_append]

/-- All values stored in `s` under key `k`, in order. -/
def collectA (k : String) (s : List (String × β)) : List β :=
  s.filterMap (fun kv => if kv.1 = k then some kv.2 else none)

theorem collectA_append (k : String) (s t : List (String × β)) :
    collectA k (s ++ t) = collectA k s ++ collectA k t := by
  simp [collectA, List.filterMap_append]

theorem nodupKeys_mergeIntoA (comb : β → β → β) (d : β) (m s : List (String × β))
    (h : (m.map Prod.fst).Nodup) : ((mergeIntoA comb d m s).map Prod.fst).Nodup := by
  induction s generalizing m with
  | nil => exact h
  | cons kv rest ih =>
    simp only [mergeIntoA, List.foldl_cons]
    exact ih _ (nodupKeys_upsertA _ _ _ _ h)

theorem lookupA_mergeIntoA (comb : β → β → β) (d : β) (m s : List (String × β)) (k : String) :
    lookupA k (mergeIntoA comb d m s) =
      match collectA k s with
      | [] => lookupA k m
      | v :: vs => some ((v :: vs).foldl comb ((lookupA k m).getD d)) := by
  induction s using List.reverseRecOn with
  | nil => simp [mergeIntoA, collectA]
  | append_singleton s kv ih =>
    obtain ⟨k1, v1⟩ := kv
    rw [mergeIntoA_append]
    have hone : mergeIntoA comb d (mergeIntoA comb d m s) [(k1, v1)] =
        upsertA k1 d (fun old => comb old v1) (mergeIntoA comb d m s) := rfl
    rw [hone, lookupA_upsertA, collectA_append, ih]
    by_cases hk : k1 = k
    · subst hk
      have hc1 : collectA k1 [(k1, v1)] = [v1] := by simp [collectA]
      rw [hc1, if_pos rfl]
      cases hcs : collectA k1 s with
      | nil => simp [hcs]
      | cons v vs => simp [hcs, List.foldl_append]
    · have hc0 : collectA k [(k1, v1)] = [] := by simp [collectA, hk]
      rw [hc0, List.append_nil, if_neg hk]

/-- Aggregate a list of values under `comb` (none when empty). -/
def aggListO (comb : β → β → β) : List β → Option β
  | [] => none
  | v :: vs => some (vs.foldl comb v)

/-- Combine two optional aggregates. -/
def combineO (comb : β → β → β) : Option β → Option β → Option β
  | none, o => o
  | some x, none => some x
  | some x, some y => some (comb x y)

theorem foldl_comb_pull (comb : β → β → β)
    (hassoc : ∀ x y z, comb (comb x y) z = comb x (comb y z)) :
    ∀ (ws : List β) (x y : β), ws.foldl comb (comb x y) = comb x (ws.foldl comb y) := by
  intro ws
  induction ws with
  | nil => intro x y; rfl
  | cons w rest ih =>
    intro x y
    simp only [List.foldl_cons]
    rw [hassoc, ih]

theorem aggListO_append (comb : β → β → β)
    (hassoc : ∀ x y z, comb (comb x y) z = comb x (comb y z)) (vs ws : List β) :
    aggListO comb (vs ++ ws) = combineO comb (aggListO comb vs) (aggListO comb ws) := by
  cases vs with
  | nil => simp [aggListO, combineO]
  | cons v vtl =>
    cases ws with
    | nil => simp [aggListO, combineO]
    | cons w wtl =>
      simp only [aggListO, combineO, List.cons_append, List.foldl_append, List.foldl_cons]
      rw [foldl_comb_pull comb hassoc]

theorem aggListO_toList (comb : β → β → β) (o : Option β) :
    aggListO comb o.toList = o := by
  cases o <;> rfl

theorem combineO_assoc (comb : β → β → β)
    (hassoc : ∀ x y z, comb (comb x y) z = comb x (comb y z)) (o1 o2 o3 : Option β) :
    combineO comb (combineO comb o1 o2) o3 = combineO comb o1 (combineO comb o2 o3) := by
  cases o1 <;> cases o2 <;> cases o3 <;> simp [combineO, hassoc]

theorem lookupA_mergeIntoA_nil (comb : β → β → β) (d : β)
    (hidl : ∀ v, comb d v = v) (s : List (String × β)) (k : String) :
    lookupA k (mergeIntoA comb d [] s) = aggListO comb (collectA k s) := by
  rw [lookupA_mergeIntoA]
  cases h : collectA k s with
  | nil => rfl
  | cons v vs =>
    simp [aggListO, lookupA, List.foldl_cons, hidl]

theorem collectA_eq_toList (k : String) (m : List (String × β))
    (h : (m.map Prod.fst).Nodup) : collectA k m = (lookupA k m).toList := by
  induction m with
  | nil => rfl
  | cons kv rest ih =>
    obtain ⟨kh, v⟩ := kv
    simp only [List.map_cons, List.nodup_cons] at h
    obtain ⟨hnot, hrest⟩ := h
    by_cases hk : kh = k
    · subst hk
      have hnone : lookupA kh rest = none := (lookupA_eq_none_iff kh rest).mpr hnot
      have hcoll : collectA kh rest = [] := by
        rw [ih hrest, hnone]
        rfl
      have h1 : collectA kh ((kh, v) :: rest) = v :: collectA kh rest := by
        simp [collectA]
      rw [h1, hcoll]
      simp [lookupA]
    · simp only [collectA, List.filterMap_cons, hk, if_neg hk, lookupA]
      rw [← collectA]
      rw [ih hrest]
      simp [hk]

/-- Per-key associativity of the dict-merge pattern: both associations of a
three-way merge store the same value at every key. -/
theorem lookupA_mergeA2_assoc (comb : β → β → β) (d : β)
    (hassoc : ∀ x y z, comb (comb x y) z = comb x (comb y z))
    (hidl : ∀ v, comb d v = v) (a b c : List (String × β)) (k : String) :
    lookupA k (mergeIntoA comb d (mergeIntoA comb d []
        (mergeIntoA comb d (mergeIntoA comb d [] a) b)) c) =
    lookupA k (mergeIntoA comb d (mergeIntoA comb d [] a)
        (mergeIntoA comb d (mergeIntoA comb d [] b) c)) := by
  have hM : ∀ x y : List (String × β),
      mergeIntoA comb d (mergeIntoA comb d [] x) y = mergeIntoA comb d [] (x ++ y) :=
    fun x y => (mergeIntoA_append comb d [] x y).symm
  rw [hM a b, hM _ c, hM b c, hM a _]
  rw [lookupA_mergeIntoA_nil comb d hidl, lookupA_mergeIntoA_nil comb d hidl]
  rw [collectA_append, collectA_append]
  rw [collectA_eq_toList k (mergeIntoA comb d [] (a ++ b))
      (nodupKeys_mergeIntoA comb d [] (a ++ b) (by simp)),
    collectA_eq_toList k (mergeIntoA comb d [] (b ++ c))
      (nodupKeys_mergeIntoA comb d [] (b ++ c) (by simp))]
  rw [lookupA_mergeIntoA_nil comb d hidl, lookupA_mergeIntoA_nil comb d hidl]
  rw [aggListO_append comb hassoc, aggListO_append comb hassoc,
    aggListO_toList, aggListO_toList]
  rw [collectA_append, collectA_append,
    aggListO_append comb hassoc, aggListO_append comb hassoc]
  exact combineO_assoc comb hassoc _ _ _

/-! ## Verification infrastructure: the user-frequency merge -/

theorem mergeUsersInto_append (m s t : List StatsUser) :
    mergeUsersInto m (s ++ t) = mergeUsersInto (mergeUsersInto m s) t := by
  simp [mergeUsersInto, List.foldl_append]

theorem userLookup_eq_head_filter (u : String) (s : List StatsUser) :
    userLookup u s = (s.filter (fun v => decide (v.username = u))).head? := by
  induction s with
  | nil => rfl
  | cons x rest ih =>
    simp only [userLookup, List.filter_cons]
    by_cases h : x.username = u
    · simp [h]
    · simp [h, ih]

theorem userLookup_append (u : String) (s t : List StatsUser) :
    userLookup u (s ++ t) = (userLookup u s).elim (userLookup u t) some := by
  induction s with
  | nil => simp [userLookup]
  | cons x rest ih =>
    simp only [List.cons_append, userLookup]
    split_ifs with h
    · rfl
    · exact ih

theorem userLookup_eq_none_iff (u : String) (s : List StatsUser) :
    userLookup u s = none ↔ u ∉ s.map StatsUser.username := by
  induction s with
  | nil => simp [userLookup]
  | cons x rest ih =>
    simp only [userLookup, List.map_cons, List.mem_cons]
    split_ifs with h
    · subst h
      simp
    · simp only [ih]
      constructor
      · intro hnot hor
        rcases hor with he | hmem
        · exact h he.symm
        · exact hnot hmem
      · intro hnot hmem
        exact hnot (Or.inr hmem)

theorem userLookup_username (u : String) (s : List StatsUser) (v : StatsUser)
    (h : userLookup u s = some v) : v.username = u := by
  induction s with
  | nil => simp [userLookup] at h
  | cons x rest ih =>
    simp only [userLookup] at h
    split_ifs at h with hx
    · cases h
      exact hx
    · exact ih h

theorem userLookup_userUpdate_keyfix (u uu : String) (f : StatsUser → StatsUser)
    (hf : ∀ v, v.username = uu → (f v).username = v.username) (m : List StatsUser) :
    userLookup u (userUpdate uu f m) = if uu = u then (userLookup u m).map f else userLookup u m := by
  induction m with
  | nil => simp [userUpdate, userLookup]
  | cons x rest ih =>
    simp only [userUpdate]
    by_cases h1 : x.username = uu
    · rw [if_pos h1]
      simp only [userLookup, hf x h1, h1]
      by_cases h2 : uu = u
      · simp [h2]
      · simp [h2, userLookup]
    · rw [if_neg h1]
      simp only [userLookup]
      by_cases h2 : x.username = u
      · have huu : ¬ uu = u := fun he => h1 (h2.trans he.symm)
        simp [h2, huu]
      · simp [h2, ih]

theorem userLookup_mergeUserEntry (m : List StatsUser) (x : StatsUser) (u : String) :
    userLookup u (mergeUserEntry m x) =
      if x.username = u then
        some ⟨x.displayName, x.username,
          (userLookup u m).elim 0 StatsUser.messageCount + x.messageCount⟩
      else userLookup u m := by
  unfold mergeUserEntry
  cases hm : userLookup x.username m with
  | none =>
    rw [userLookup_append]
    by_cases h : x.username = u
    · subst h
      rw [hm]
      simp [userLookup]
    · cases hum : userLookup u m <;> simp [userLookup, h, hum]
  | some old =>
    rw [userLookup_userUpdate_keyfix _ _ _ (fun v hv => by simp [hv])]
    by_cases h : x.username = u
    · subst h
      simp [hm]
    · simp [h]

theorem usernames_userUpdate_keyfix (uu : String) (f : StatsUser → StatsUser)
    (hf : ∀ v, v.username = uu → (f v).username = v.username) (m : List StatsUser) :
    (userUpdate uu f m).map StatsUser.username = m.map StatsUser.username := by
  induction m with
  | nil => rfl
  | cons x rest ih =>
    simp only [userUpdate]
    split_ifs with h
    · simp [hf x h]
    · simp [ih]

theorem usernames_nodup_mergeUsersInto (m s : List StatsUser)
    (h : (m.map StatsUser.username).Nodup) :
    ((mergeUsersInto m s).map StatsUser.username).Nodup := by
  induction s generalizing m with
  | nil => exact h
  | cons x rest ih =>
    simp only [mergeUsersInto, List.foldl_cons]
    apply ih
    unfold mergeUserEntry
    cases hm : userLookup x.username m with
    | none =>
      have hnot : x.username ∉ m.map StatsUser.username := (userLookup_eq_none_iff _ m).mp hm
      simp [List.nodup_append, h, hnot]
    | some old =>
      rw [usernames_userUpdate_keyfix _ _ (fun v hv => by simp [hv])]
      exact h

/-- The per-username aggregate of an arbitrary entry list: total count, last
display name (later write wins), keyed username. -/
def userAgg (u : String) (s : List StatsUser) : Option StatsUser :=
  let l := s.filter (fun v => decide (v.username = u))
  if l.isEmpty then none
  else some ⟨((l.map StatsUser.displayName).getLast?).getD "", u,
    (l.map StatsUser.messageCount).sum⟩

theorem userLookup_mergeUsersInto (m s : List StatsUser) (u : String) :
    userLookup u (mergeUsersInto m s) =
      if (s.filter (fun v => decide (v.username = u))).isEmpty then userLookup u m
      else
        some ⟨(((s.filter (fun v => decide (v.username = u))).map
            StatsUser.displayName).getLast?).getD "", u,
          (userLookup u m).elim 0 StatsUser.messageCount +
            ((s.filter (fun v => decide (v.username = u))).map StatsUser.messageCount).sum⟩ := by
  induction s using List.reverseRecOn with
  | nil => simp [mergeUsersInto]
  | append_singleton s x ih =>
    rw [mergeUsersInto_append]
    have hone : mergeUsersInto (mergeUsersInto m s) [x] =
        mergeUserEntry (mergeUsersInto m s) x := rfl
    rw [hone, userLookup_mergeUserEntry, ih]
    by_cases hx : x.username = u
    · have hfilter : (s ++ [x]).filter (fun v => decide (v.username = u)) =
          s.filter (fun v => decide (v.username = u)) ++ [x] := by
        simp [List.filter_append, hx]
      rw [if_pos hx, hfilter]
      by_cases hemp : (s.filter (fun v => decide (v.username = u))).isEmpty
      · rw [if_pos hemp]
        have hnil : s.filter (fun v => decide (v.username = u)) = [] :=
          List.isEmpty_iff.mp hemp
        simp [hnil, hx]
      · rw [if_neg hemp]
        have hne : s.filter (fun v => decide (v.username = u)) ≠ [] :=
          fun he => hemp (by simp [he])
        rw [if_neg (by simp : ¬ ((s.filter (fun v => decide (v.username = u)) ++ [x]).isEmpty = true))]
        simp only [Option.elim_some]
        simp [hx, Nat.add_assoc, List.getLast?_concat]
    · have hfilter : (s ++ [x]).filter (fun v => decide (v.username = u)) =
          s.filter (fun v => decide (v.username = u)) := by
        simp [List.filter_append, hx]
      rw [if_neg hx, hfilter]

theorem userLookup_mergeUsersInto_nil (s : List StatsUser) (u : String) :
    userLookup u (mergeUsersInto [] s) = userAgg u s := by
  rw [userLookup_mergeUsersInto]
  unfold userAgg
  by_cases h : (s.filter (fun v => decide (v.username = u))).isEmpty
  · simp [h, userLookup]
  · simp [h, userLookup]

/-- Combine two optional per-username aggregates: counts add, the later
display name wins. -/
def combineU (u : String) : Option StatsUser → Option StatsUser → Option StatsUser
  | none, o => o
  | some x, none => some x
  | some x, some y => some ⟨y.displayName, u, x.messageCount + y.messageCount⟩

theorem getLast?_append_right (A B : List γ) (h : B ≠ []) :
    (A ++ B).getLast? = B.getLast? := by
  rw [List.getLast?_append]
  cases hB : B.getLast? with
  | none =>
    exact absurd (by simpa using hB) h
  | some v => rfl

theorem userAgg_append (u : String) (s t : List StatsUser) :
    userAgg u (s ++ t) = combineU u (userAgg u s) (userAgg u t) := by
  cases hfs : s.filter (fun v => decide (v.username = u)) with
  | nil => simp [userAgg, List.filter_append, hfs, combineU]
  | cons a as =>
    cases hft : t.filter (fun v => decide (v.username = u)) with
    | nil => simp [userAgg, List.filter_append, hfs, hft, combineU]
    | cons b bs =>
      have hlast : ((a :: as ++ b :: bs).map StatsUser.displayName).getLast? =
          (((b :: bs)).map StatsUser.displayName).getLast? := by
        rw [List.map_append]
        exact getLast?_append_right _ _ (by simp)
      simp only [userAgg, List.filter_append, hfs, hft, combineU, List.map_cons,
        List.map_append, List.sum_cons, List.sum_append, List.cons_append,
        List.isEmpty_cons, Bool.false_eq_true, if_false, Option.some.injEq,
        StatsUser.mk.injEq, true_and]
      constructor
      · have h2 := getLast?_append_right (A := a.displayName :: List.map StatsUser.displayName as)
          (B := b.displayName :: List.map StatsUser.displayName bs) (by simp)
        rw [List.cons_append] at h2
        rw [h2]
      · omega

theorem combineU_assoc (u : String) (o1 o2 o3 : Option StatsUser) :
    combineU u (combineU u o1 o2) o3 = combineU u o1 (combineU u o2 o3) := by
  cases o1 <;> cases o2 <;> cases o3 <;> simp [combineU, Nat.add_assoc]

theorem filter_username_eq_toList (u : String) (s : List StatsUser)
    (h : (s.map StatsUser.username).Nodup) :
    s.filter (fun v => decide (v.username = u)) = (userLookup u s).toList := by
  induction s with
  | nil => rfl
  | cons x rest ih =>
    simp only [List.map_cons, List.nodup_cons] at h
    obtain ⟨hnot, hrest⟩ := h
    simp only [List.filter_cons, userLookup]
    by_cases hx : x.username = u
    · subst hx
      have hnone : userLookup x.username rest = none := (userLookup_eq_none_iff _ rest).mpr hnot
      have : rest.filter (fun v => decide (v.username = x.username)) = [] := by
        rw [ih hrest, hnone]
        rfl
      simp [this]
    · simp [hx, ih hrest]

theorem userAgg_eq_userLookup (u : String) (s : List StatsUser)
    (h : (s.map StatsUser.username).Nodup) :
    userAgg u s = userLookup u s := by
  unfold userAgg
  rw [filter_username_eq_toList u s h]
  cases hv : userLookup u s with
  | none => rfl
  | some v =>
    have hu : v.username = u := userLookup_username u s v hv
    simp [Option.toList, ← hu]

theorem userLookup_sort_eq (u : String) (s : List StatsUser)
    (h : (s.map StatsUser.username).Nodup) :
    userLookup u (sortUsersDesc s) = userLookup u s := by
  rw [userLookup_eq_head_filter, userLookup_eq_head_filter]
  have hperm : ((sortUsersDesc s).filter (fun v => decide (v.username = u))).Perm
      (s.filter (fun v => decide (v.username = u))) :=
    (stableSortBy_perm _ s).filter _
  rw [filter_username_eq_toList u s h] at hperm
  rw [filter_username_eq_toList u s h]
  cases hv : userLookup u s with
  | none =>
    rw [hv] at hperm
    simp only [Option.toList] at hperm
    rw [List.Perm.eq_nil hperm]
    rfl
  | some v =>
    rw [hv] at hperm
    simp only [Option.toList] at hperm
    rw [List.perm_singleton.mp hperm]
    rfl

theorem usernames_sort_nodup (s : List StatsUser)
    (h : (s.map StatsUser.username).Nodup) :
    ((sortUsersDesc s).map StatsUser.username).Nodup :=
  ((stableSortBy_perm _ s).map StatsUser.username).nodup_iff.mpr h

theorem userLookup_some_split (u : String) (s : List StatsUser) (v : StatsUser)
    (h : userLookup u s = some v) :
    ∃ s1 s2, s = s1 ++ v :: s2 ∧ ∀ w ∈ s1, w.username ≠ u := by
  induction s with
  | nil => simp [userLookup] at h
  | cons x rest ih =>
    simp only [userLookup] at h
    split_ifs at h with hx
    · cases h
      exact ⟨[], rest, rfl, by simp⟩
    · obtain ⟨s1, s2, rfl, hs1⟩ := ih h
      refine ⟨x :: s1, s2, rfl, ?_⟩
      intro w hw
      rcases List.mem_cons.mp hw with rfl | hw
      · exact hx
      · exact hs1 w hw

/-- Two lists with no repeated usernames and identical lookups are
permutations of each other. -/
theorem users_perm_of_lookup_eq (X Y : List StatsUser)
    (hX : (X.map StatsUser.username).Nodup) (hY : (Y.map StatsUser.username).Nodup)
    (h : ∀ u, userLookup u X = userLookup u Y) : X.Perm Y := by
  induction X generalizing Y with
  | nil =>
    cases Y with
    | nil => exact List.Perm.refl _
    | cons y ys =>
      have hy := h y.username
      simp [userLookup] at hy
  | cons x X ih =>
    simp only [List.map_cons, List.nodup_cons] at hX
    obtain ⟨hxnot, hXrest⟩ := hX
    have hx := h x.username
    rw [show userLookup x.username (x :: X) = some x by simp [userLookup]] at hx
    obtain ⟨Y1, Y2, rfl, hY1⟩ := userLookup_some_split _ _ _ hx.symm
    have hYsplit := hY
    rw [List.map_append, List.map_cons] at hYsplit
    obtain ⟨hY1n, hY2n, hcross⟩ := List.nodup_append.mp hYsplit
    obtain ⟨hxnotY2, hY2rest⟩ := List.nodup_cons.mp hY2n
    have hYrest : ((Y1 ++ Y2).map StatsUser.username).Nodup := by
      rw [List.map_append]
      refine List.nodup_append.mpr ⟨hY1n, hY2rest, ?_⟩
      intro a ha hb
      exact hcross ha (List.mem_cons.mpr (Or.inr hb))
    have hlook : ∀ u, userLookup u X = userLookup u (Y1 ++ Y2) := by
      intro u
      by_cases hu : u = x.username
      · subst hu
        have h1 : userLookup x.username X = none :=
          (userLookup_eq_none_iff _ X).mpr hxnot
        have h2 : userLookup x.username (Y1 ++ Y2) = none := by
          apply (userLookup_eq_none_iff _ _).mpr
          rw [List.map_append]
          intro hmem
          rcases List.mem_append.mp hmem with hm | hm
          · exact hcross hm (List.mem_cons.mpr (Or.inl rfl))
          · exact hxnotY2 hm
        rw [h1, h2]
      · have hne : ¬ x.username = u := fun he => hu he.symm
        have hXu : userLookup u (x :: X) = userLookup u X := by
          simp only [userLookup]
          rw [if_neg hne]
        have hYu : userLookup u (Y1 ++ Y2) = userLookup u (Y1 ++ x :: Y2) := by
          rw [userLookup_append, userLookup_append]
          have hskip : userLookup u (x :: Y2) = userLookup u Y2 := by
            simp only [userLookup]
            rw [if_neg hne]
          rw [hskip]
        rw [← hXu, h u, ← hYu]
    have hperm : X.Perm (Y1 ++ Y2) := ih (Y1 ++ Y2) hXrest hYrest hlook
    exact (hperm.cons x).trans List.perm_middle.symm

/-- Both associations of the user-frequency merge agree at every username. -/
theorem users_assoc_lookup (a b c : List StatsUser) (u : String) :
    userLookup u (mergeUsersInto []
        (sortUsersDesc (mergeUsersInto [] (a ++ b)) ++ c)) =
    userLookup u (mergeUsersInto []
        (a ++ sortUsersDesc (mergeUsersInto [] (b ++ c)))) := by
  rw [userLookup_mergeUsersInto_nil, userLookup_mergeUsersInto_nil]
  rw [userAgg_append, userAgg_append]
  have hab : userAgg u (sortUsersDesc (mergeUsersInto [] (a ++ b))) =
      combineU u (userAgg u a) (userAgg u b) := by
    rw [userAgg_eq_userLookup _ _
        (usernames_sort_nodup _ (usernames_nodup_mergeUsersInto [] _ (by simp)))]
    rw [userLookup_sort_eq _ _ (usernames_nodup_mergeUsersInto [] _ (by simp))]
    rw [userLookup_mergeUsersInto_nil, userAgg_append]
  have hbc : userAgg u (sortUsersDesc (mergeUsersInto [] (b ++ c))) =
      combineU u (userAgg u b) (userAgg u c) := by
    rw [userAgg_eq_userLookup _ _
        (usernames_sort_nodup _ (usernames_nodup_mergeUsersInto [] _ (by simp)))]
    rw [userLookup_sort_eq _ _ (usernames_nodup_mergeUsersInto [] _ (by simp))]
    rw [userLookup_mergeUsersInto_nil, userAgg_append]
  rw [hab, hbc]
  exact combineU_assoc u _ _ _

/-- Both associations of the user-frequency merge produce permutations of
each other. -/
theorem users_assoc_perm (a b c : List StatsUser) :
    (sortUsersDesc (mergeUsersInto []
        (sortUsersDesc (mergeUsersInto [] (a ++ b)) ++ c))).Perm
    (sortUsersDesc (mergeUsersInto []
        (a ++ sortUsersDesc (mergeUsersInto [] (b ++ c))))) := by
  have hn1 := usernames_nodup_mergeUsersInto []
    (sortUsersDesc (mergeUsersInto [] (a ++ b)) ++ c) (by simp)
  have hn2 := usernames_nodup_mergeUsersInto []
    (a ++ sortUsersDesc (mergeUsersInto [] (b ++ c))) (by simp)
  have hperm0 := users_perm_of_lookup_eq _ _ hn1 hn2 (users_assoc_lookup a b c)
  exact ((stableSortBy_perm _ _).trans hperm0).trans (stableSortBy_perm _ _).symm

theorem addHourly_assoc (ha hb hc : List Nat) :
    addHourly (addHourly (List.replicate 24 0)
        (addHourly (addHourly (List.replicate 24 0) ha) hb)) hc =
    addHourly (addHourly (List.replicate 24 0) ha)
        (addHourly (addHourly (List.replicate 24 0) hb) hc) := by
  apply List.ext_getElem?
  intro i
  simp only [addHourly_get?]
  by_cases hi : i < 24
  · have hz : (List.replicate 24 (0 : Nat))[i]? = some 0 := by
      rw [List.getElem?_replicate]
      simp [hi]
    cases hha : ha[i]? <;> cases hhb : hb[i]? <;> cases hhc : hc[i]? <;>
      simp only [hz, hha, hhb, hhc, Option.map_some', Option.map_none', Option.getD_some,
        Option.getD_none, Option.some.injEq] <;> omega
  · have hz : (List.replicate 24 (0 : Nat))[i]? = none := by
      rw [List.getElem?_replicate]
      simp [hi]
    simp only [hz, Option.map_none']

/-! ## Claim C3 — associativity of `merge_message_statistics` -/

/-- Counterexample report: an empty statistics report. -/
def reportA : StatsReport := ⟨[], [], [], [], []⟩

/-- Counterexample report: users x (1 message) and y (2 messages). -/
def reportB : StatsReport := ⟨[], [], [], [⟨"x", "x", 1⟩, ⟨"y", "y", 2⟩], []⟩

/-- Counterexample report: user x with 1 further message. -/
def reportC : StatsReport := ⟨[], [], [], [⟨"x", "x", 1⟩], []⟩

/-- C3 (counterexample): three reports with pairwise disjoint (indeed
empty) message id sets on which
`merge_message_statistics(merge_message_statistics(a,b), c)` differs from
`merge_message_statistics(a, merge_message_statistics(b,c))`: after the
left association the tied users come out as [y, x], after the right
association as [x, y], so the sorted `user_frequency` lists are not
equal. -/
theorem c3_merge_assoc_counterexample :
    (∀ i, i ∈ reportMessageIds reportA → i ∉ reportMessageIds reportB) ∧
    (∀ i, i ∈ reportMessageIds reportA → i ∉ reportMessageIds reportC) ∧
    (∀ i, i ∈ reportMessageIds reportB → i ∉ reportMessageIds reportC) ∧
    merge_message_statistics (merge_message_statistics reportA reportB) reportC ≠
      merge_message_statistics reportA (merge_message_statistics reportB reportC) := by
  refine ⟨?_, ?_, ?_, ?_⟩
  · intro i hi
    simp [reportMessageIds, reportA] at hi
  · intro i hi
    simp [reportMessageIds, reportA] at hi
  · intro i hi
    simp [reportMessageIds, reportB] at hi
  · decide

/-- C3 (amended): for any three reports over pairwise disjoint message id
sets, the two associations of `merge_message_statistics` agree on
`trigger_frequency` (same value at every key, hence equal dicts),
`frequency_hourly`, `frequency_weekday` (same value at every key) and
`links`; the `user_frequency` lists are equal up to permutation, but the
order of users tied at an equal messageCount may differ between the two
associations, so list equality does not hold there. -/
theorem c3_merge_assoc_amended (a b c : StatsReport)
    (_hab : ∀ i, i ∈ reportMessageIds a → i ∉ reportMessageIds b)
    (_hac : ∀ i, i ∈ reportMessageIds a → i ∉ reportMessageIds c)
    (_hbc : ∀ i, i ∈ reportMessageIds b → i ∉ reportMessageIds c) :
    (∀ w, lookupA w
        (merge_message_statistics (merge_message_statistics a b) c).trigger_frequency =
      lookupA w
        (merge_message_statistics a (merge_message_statistics b c)).trigger_frequency) ∧
    (merge_message_statistics (merge_message_statistics a b) c).frequency_hourly =
      (merge_message_statistics a (merge_message_statistics b c)).frequency_hourly ∧
    (∀ d, lookupA d
        (merge_message_statistics (merge_message_statistics a b) c).frequency_weekday =
      lookupA d
        (merge_message_statistics a (merge_message_statistics b c)).frequency_weekday) ∧
    (merge_message_statistics (merge_message_statistics a b) c).links =
      (merge_message_statistics a (merge_message_statistics b c)).links ∧
    ((merge_message_statistics (merge_message_statistics a b) c).user_frequency).Perm
      ((merge_message_statistics a (merge_message_statistics b c)).user_frequency) := by
  refine ⟨?_, ?_, ?_, ?_, ?_⟩
  · intro w
    simp only [merge_message_statistics, mergeTriggerInto_eq]
    exact lookupA_mergeA2_assoc _ _
      (fun x y z => by
        cases x
        cases y
        cases z
        simp [Nat.add_assoc, List.append_assoc])
      (fun v => by cases v; simp)
      a.trigger_frequency b.trigger_frequency c.trigger_frequency w
  · simp only [merge_message_statistics]
    exact addHourly_assoc _ _ _
  · intro d
    simp only [merge_message_statistics, mergeWeekdayInto_eq]
    exact lookupA_mergeA2_assoc _ _
      (fun x y z => Nat.add_assoc x y z)
      (fun v => Nat.zero_add v)
      a.frequency_weekday b.frequency_weekday c.frequency_weekday d
  · simp only [merge_message_statistics]
    exact List.append_assoc _ _ _
  · simp only [merge_message_statistics, ← mergeUsersInto_append]
    exact users_assoc_perm _ _ _

/-- Witness report for the amended C3: trigger word alpha on message 1,
user a, recorded on a Monday. -/
def wReportA : StatsReport :=
  ⟨[("alpha", ⟨1, [1]⟩)], List.replicate 24 0, [("monday", 1)], [⟨"A", "a", 1⟩], []⟩

/-- Witness report for the amended C3: message ids 2 only. -/
def wReportB : StatsReport :=
  ⟨[("alpha", ⟨2, [2]⟩)], List.replicate 24 0, [("tuesday", 1)], [⟨"B", "b", 2⟩],
    [⟨2, ["http://x"]⟩]⟩

/-- Witness report for the amended C3: message ids 3 only. -/
def wReportC : StatsReport :=
  ⟨[], List.replicate 24 0, [], [⟨"A2", "a", 1⟩], [⟨3, ["www.y"]⟩]⟩

/-- Witness for the amended C3 at three concrete disjoint-id reports. -/
theorem c3_merge_assoc_amended_witness :
    ((∀ i, i ∈ reportMessageIds wReportA → i ∉ reportMessageIds wReportB) ∧
     (∀ i, i ∈ reportMessageIds wReportA → i ∉ reportMessageIds wReportC) ∧
     (∀ i, i ∈ reportMessageIds wReportB → i ∉ reportMessageIds wReportC)) ∧
    ((∀ w, lookupA w
        (merge_message_statistics (merge_message_statistics wReportA wReportB)
          wReportC).trigger_frequency =
      lookupA w
        (merge_message_statistics wReportA (merge_message_statistics wReportB
          wReportC)).trigger_frequency) ∧
    (merge_message_statistics (merge_message_statistics wReportA wReportB)
        wReportC).frequency_hourly =
      (merge_message_statistics wReportA (merge_message_statistics wReportB
        wReportC)).frequency_hourly ∧
    (∀ d, lookupA d
        (merge_message_statistics (merge_message_statistics wReportA wReportB)
          wReportC).frequency_weekday =
      lookupA d
        (merge_message_statistics wReportA (merge_message_statistics wReportB
          wReportC)).frequency_weekday) ∧
    (merge_message_statistics (merge_message_statistics wReportA wReportB) wReportC).links =
      (merge_message_statistics wReportA (merge_message_statistics wReportB wReportC)).links ∧
    ((merge_message_statistics (merge_message_statistics wReportA wReportB)
        wReportC).user_frequency).Perm
      ((merge_message_statistics wReportA (merge_message_statistics wReportB
        wReportC)).user_frequency)) := by
  have h1 : ∀ i, i ∈ reportMessageIds wReportA → i ∉ reportMessageIds wReportB := by
    intro i hi
    simp [reportMessageIds, wReportA] at hi
    subst hi
    decide
  have h2 : ∀ i, i ∈ reportMessageIds wReportA → i ∉ reportMessageIds wReportC := by
    intro i hi
    simp [reportMessageIds, wReportA] at hi
    subst hi
    decide
  have h3 : ∀ i, i ∈ reportMessageIds wReportB → i ∉ reportMessageIds wReportC := by
    intro i hi
    simp [reportMessageIds, wReportB] at hi
    subst hi
    decide
  exact ⟨⟨h1, h2, h3⟩, c3_merge_assoc_amended wReportA wReportB wReportC h1 h2 h3⟩

/-! ## Claim C7 — merging a report with itself doubles every numeric field -/

/-- C7: for every well-formed statistics report (24-slot histogram, dict
keys unique as Python dicts guarantee), `merge_message_statistics(a, a)`
doubles every numeric field: each trigger word's count, each hourly
bucket, each weekday count, and each user's messageCount — the merge is an
accumulation operator, not idempotent. -/
theorem c7_merge_self_doubles (a : StatsReport)
    (hlen : a.frequency_hourly.length = 24)
    (htrig : (a.trigger_frequency.map Prod.fst).Nodup)
    (hweek : (a.frequency_weekday.map Prod.fst).Nodup)
    (husers : (a.user_frequency.map StatsUser.username).Nodup) :
    (∀ w t, lookupA w a.trigger_frequency = some t →
      lookupA w (merge_message_statistics a a).trigger_frequency =
        some ⟨2 * t.count, t.message_ids ++ t.message_ids⟩) ∧
    (merge_message_statistics a a).frequency_hourly =
      a.frequency_hourly.map (fun n => 2 * n) ∧
    (∀ d n, lookupA d a.frequency_weekday = some n →
      lookupA d (merge_message_statistics a a).frequency_weekday = some (2 * n)) ∧
    (∀ u v, userLookup u a.user_frequency = some v →
      userLookup u (merge_message_statistics a a).user_frequency =
        some ⟨v.displayName, v.username, 2 * v.messageCount⟩) := by
  refine ⟨?_, ?_, ?_, ?_⟩
  · intro w t ht
    simp only [merge_message_statistics, mergeTriggerInto_eq]
    rw [← mergeIntoA_append, lookupA_mergeIntoA_nil _ _ (fun v => by cases v; simp)]
    rw [collectA_append, collectA_eq_toList w _ htrig, ht]
    simp only [Option.toList]
    simp [aggListO, two_mul]
  · simp only [merge_message_statistics]
    apply List.ext_getElem?
    intro i
    rw [List.getElem?_map]
    simp only [addHourly_get?]
    by_cases hi : i < 24
    · have hz : (List.replicate 24 (0 : Nat))[i]? = some 0 := by
        rw [List.getElem?_replicate]
        simp [hi]
      have hsome : ∃ v, a.frequency_hourly[i]? = some v := by
        have : i < a.frequency_hourly.length := by omega
        exact ⟨a.frequency_hourly[i], List.getElem?_eq_getElem this⟩
      obtain ⟨v, hv⟩ := hsome
      simp only [hz, hv, Option.map_some', Option.getD_some, Option.some.injEq]
      omega
    · have hz : (List.replicate 24 (0 : Nat))[i]? = none := by
        rw [List.getElem?_replicate]
        simp [hi]
      have hv : a.frequency_hourly[i]? = none := by
        rw [List.getElem?_eq_none]
        omega
      simp only [hz, hv, Option.map_none']
  · intro d n hn
    simp only [merge_message_statistics, mergeWeekdayInto_eq]
    rw [← mergeIntoA_append, lookupA_mergeIntoA_nil _ _ (fun v => Nat.zero_add v)]
    rw [collectA_append, collectA_eq_toList d _ hweek, hn]
    simp only [Option.toList]
    simp [aggListO, two_mul]
  · intro u v hv
    have hu : v.username = u := userLookup_username u _ v hv
    simp only [merge_message_statistics, ← mergeUsersInto_append]
    rw [userLookup_sort_eq _ _ (usernames_nodup_mergeUsersInto [] _ (by simp))]
    rw [userLookup_mergeUsersInto_nil, userAgg_append,
      userAgg_eq_userLookup _ _ husers, hv]
    simp [combineU, ← hu, two_mul]

/-- Witness report for C7: one trigger word, one active hour, one weekday,
one user. -/
def wReportD : StatsReport :=
  ⟨[("alert", ⟨3, [4, 5, 6]⟩)], List.replicate 23 0 ++ [7], [("friday", 2)],
    [⟨"Dana", "dana", 5⟩], [⟨4, ["http://z"]⟩]⟩

/-- Witness for C7 at a concrete report. -/
theorem c7_merge_self_doubles_witness :
    (wReportD.frequency_hourly.length = 24 ∧
     (wReportD.trigger_frequency.map Prod.fst).Nodup ∧
     (wReportD.frequency_weekday.map Prod.fst).Nodup ∧
     (wReportD.user_frequency.map StatsUser.username).Nodup) ∧
    ((∀ w t, lookupA w wReportD.trigger_frequency = some t →
      lookupA w (merge_message_statistics wReportD wReportD).trigger_frequency =
        some ⟨2 * t.count, t.message_ids ++ t.message_ids⟩) ∧
    (merge_message_statistics wReportD wReportD).frequency_hourly =
      wReportD.frequency_hourly.map (fun n => 2 * n) ∧
    (∀ d n, lookupA d wReportD.frequency_weekday = some n →
      lookupA d (merge_message_statistics wReportD wReportD).frequency_weekday =
        some (2 * n)) ∧
    (∀ u v, userLookup u wReportD.user_frequency = some v →
      userLookup u (merge_message_statistics wReportD wReportD).user_frequency =
        some ⟨v.displayName, v.username, 2 * v.messageCount⟩)) :=
  ⟨⟨by decide, by decide, by decide, by decide⟩,
    c7_merge_self_doubles wReportD (by decide) (by decide) (by decide) (by decide)⟩

/-! ## Claim C6 — hourly histogram shape and total -/

/-- Loop invariant of the statistics pass: the 24-slot histogram keeps its
length, and its total grows by one for exactly each message whose raw
timestamp parses. -/
theorem genFold_hourly (p : String → Option PyDateTime) (el : String → List String)
    (tws : List String) :
    ∀ (msgs : List StatMessage) (st : StatsReport),
    st.frequency_hourly.length = 24 →
    ((msgs.foldl (genStep p el tws) st).frequency_hourly.length = 24 ∧
     (msgs.foldl (genStep p el tws) st).frequency_hourly.sum =
       st.frequency_hourly.sum +
         (msgs.filter (fun m => (p m.timestamp_raw).isSome)).length) := by
  intro msgs
  induction msgs with
  | nil =>
    intro st hst
    simpa using hst
  | cons m rest ih =>
    intro st hst
    simp only [List.foldl_cons, List.filter_cons]
    cases hp : p m.timestamp_raw with
    | none =>
      have hstep : genStep p el tws st m = st := by
        unfold genStep
        rw [hp]
      rw [hstep]
      simpa [hp] using ih st hst
    | some time =>
      have hstep : (genStep p el tws st m).frequency_hourly =
          listModify (· + 1) time.hour.val st.frequency_hourly := by
        unfold genStep
        rw [hp]
      have hlen2 : (genStep p el tws st m).frequency_hourly.length = 24 := by
        rw [hstep, listModify_length]
        exact hst
      obtain ⟨ihlen, ihsum⟩ := ih (genStep p el tws st m) hlen2
      refine ⟨ihlen, ?_⟩
      rw [ihsum, hstep, listModify_sum_succ _ _ (by rw [hst]; exact time.hour.isLt)]
      simp [hp]
      omega

/-- C6: for every message list and non-empty trigger-word list the report's
`frequency_hourly` has length exactly 24 and sums to the number of
messages whose raw timestamp parses; unparseable messages are skipped while
the rest contribute, and the (total) computation cannot fail. -/
theorem c6_hourly_histogram (p : String → Option PyDateTime)
    (el : String → List String) (msgs : List StatMessage) (tws : List String)
    (_htw : tws ≠ []) :
    (generate_message_statistics p el msgs tws).frequency_hourly.length = 24 ∧
    (generate_message_statistics p el msgs tws).frequency_hourly.sum =
      (msgs.filter (fun m => (p m.timestamp_raw).isSome)).length := by
  unfold generate_message_statistics
  have h0 : (List.replicate 24 (0 : Nat)).length = 24 := by simp
  obtain ⟨hlen, hsum⟩ := genFold_hourly p el tws msgs
    ⟨initTrigger tws, List.replicate 24 0, [], [], []⟩ h0
  refine ⟨hlen, ?_⟩
  rw [hsum]
  simp

/-- Witness parser for C6: exactly the string "iso" parses, to 05:00 on a
Monday. -/
def wParse : String → Option PyDateTime :=
  fun s => if s = "iso" then some ⟨⟨5, by omega⟩, "Monday", 1000⟩ else none

/-- Witness messages for C6: one parseable, one malformed timestamp. -/
def wMessages : List StatMessage :=
  [⟨"iso", 1, some "u1", some "Ann", none, some "hello world"⟩,
   ⟨"garbage", 2, none, none, none, some "bye"⟩]

/-- Witness for C6 at a concrete batch with one malformed timestamp. -/
theorem c6_hourly_histogram_witness :
    (["alpha"] : List String) ≠ [] ∧
    ((generate_message_statistics wParse (fun _ => []) wMessages
        ["alpha"]).frequency_hourly.length = 24 ∧
     (generate_message_statistics wParse (fun _ => []) wMessages
        ["alpha"]).frequency_hourly.sum =
       (wMessages.filter (fun m => (wParse m.timestamp_raw).isSome)).length) :=
  ⟨by decide, c6_hourly_histogram wParse (fun _ => []) wMessages ["alpha"] (by decide)⟩

/-! ## Claim C2 — there is no important-message set in the report -/

/-- Counterexample parser for C2: only "t" parses (03:00, a Monday). -/
def cexParse : String → Option PyDateTime :=
  fun s => if s = "t" then some ⟨⟨3, by omega⟩, "Monday", 100⟩ else none

/-- Counterexample message for C2: parseable, no trigger match, no link. -/
def cexMessages : List StatMessage :=
  [⟨"t", 11, some "u", some "F", none, some "hello"⟩]

/-- C2 (counterexample): the report dict returned by
`generate_message_statistics` carries exactly the five keys
trigger_frequency, frequency_hourly, frequency_weekday, user_frequency and
links — there is no `important_messages` key at all, so no input can yield
a "present and empty" important-message set; at the concrete no-match,
no-link input the complete report is the five fields with zero trigger
counts, an empty links list and a populated histogram. -/
theorem c2_important_messages_counterexample :
    "important_messages" ∉ generate_message_statistics_keys ∧
    generate_message_statistics_keys =
      ["trigger_frequency", "frequency_hourly", "frequency_weekday",
        "user_frequency", "links"] ∧
    (generate_message_statistics cexParse (fun _ => []) cexMessages ["zzz"]).links = [] ∧
    lookupA "zzz" (generate_message_statistics cexParse (fun _ => [])
      cexMessages ["zzz"]).trigger_frequency = some ⟨0, []⟩ ∧
    (generate_message_statistics cexParse (fun _ => [])
      cexMessages ["zzz"]).frequency_hourly.sum = 1 := by
  refine ⟨by decide, rfl, by decide, by decide, by decide⟩

/-- No trigger word matching the text leaves the trigger dict unchanged. -/
theorem bumpTrigger_no_match (mid : Nat) (text : String) (tws : List String)
    (tf : List (String × TriggerData)) (h : ∀ w ∈ tws, strContains text w = false) :
    tws.foldl (bumpTrigger mid text) tf = tf := by
  induction tws generalizing tf with
  | nil => rfl
  | cons w rest ih =>
    simp only [List.foldl_cons]
    have hw : strContains text w = false := h w (by simp)
    have hstep : bumpTrigger mid text tf w = tf := by
      unfold bumpTrigger
      rw [hw]
      simp
    rw [hstep]
    exact ih tf (fun w2 hw2 => h w2 (List.mem_cons_of_mem _ hw2))

/-- Under no trigger matches and no extracted links the statistics fold
changes neither the trigger dict nor the links list. -/
theorem genFold_no_matches (p : String → Option PyDateTime) (el : String → List String)
    (tws : List String) :
    ∀ (msgs : List StatMessage) (st : StatsReport),
    (∀ m ∈ msgs, ∀ w ∈ tws, strContains (pyOrStr m.text "") w = false) →
    (∀ m ∈ msgs, el (pyOrStr m.text "") = []) →
    ((msgs.foldl (genStep p el tws) st).trigger_frequency = st.trigger_frequency ∧
     (msgs.foldl (genStep p el tws) st).links = st.links) := by
  intro msgs
  induction msgs with
  | nil =>
    intro st _ _
    exact ⟨rfl, rfl⟩
  | cons m rest ih =>
    intro st hmatch hlinks
    simp only [List.foldl_cons]
    have hstep : (genStep p el tws st m).trigger_frequency = st.trigger_frequency ∧
        (genStep p el tws st m).links = st.links := by
      unfold genStep
      cases hp : p m.timestamp_raw with
      | none => exact ⟨rfl, rfl⟩
      | some time =>
        constructor
        · exact bumpTrigger_no_match _ _ _ _ (hmatch m (by simp))
        · simp [hlinks m (by simp)]
    obtain ⟨ht, hl⟩ := ih (genStep p el tws st m)
      (fun m2 hm2 w hw => hmatch m2 (by simp [hm2]) w hw)
      (fun m2 hm2 => hlinks m2 (by simp [hm2]))
    exact ⟨ht.trans hstep.1, hl.trans hstep.2⟩

/-- Every entry of the initial trigger dict is the zero record. -/
theorem initTrigger_lookup (tws : List String) (w : String) (t : TriggerData)
    (h : lookupA w (initTrigger tws) = some t) : t = ⟨0, []⟩ := by
  unfold initTrigger at h
  have hgen : ∀ (ws : List String) (acc : List (String × TriggerData)),
      (∀ w2 t2, lookupA w2 acc = some t2 → t2 = ⟨0, []⟩) →
      ∀ w2 t2, lookupA w2 (ws.foldl
        (fun m w3 => match lookupA w3 m with
          | some _ => m
          | none => m ++ [(w3, ⟨0, []⟩)]) acc) = some t2 → t2 = ⟨0, []⟩ := by
    intro ws
    induction ws with
    | nil => intro acc hacc w2 t2 h2; exact hacc w2 t2 h2
    | cons w3 rest ih =>
      intro acc hacc w2 t2 h2
      simp only [List.foldl_cons] at h2
      refine ih _ ?_ w2 t2 h2
      intro w4 t4 h4
      cases hl : lookupA w3 acc with
      | some v =>
        rw [hl] at h4
        exact hacc w4 t4 h4
      | none =>
        rw [hl] at h4
        rw [lookupA_append] at h4
        cases hacc4 : lookupA w4 acc with
        | some v => exact hacc w4 t4 (by rw [hacc4] at h4; simpa using h4 ▸ hacc4)
        | none =>
          rw [hacc4] at h4
          simp only [Option.elim_none, lookupA] at h4
          split_ifs at h4
          · cases h4
            rfl
      
  exact hgen tws [] (fun w2 t2 h2 => by simp [lookupA] at h2) w t h

/-- C2 (amended): the report returned by `generate_message_statistics`
contains no important-message set — its keys are exactly
trigger_frequency, frequency_hourly, frequency_weekday, user_frequency and
links; a per-message `is_important` flag (trigger match or link, with
`@`-references playing no role) is computed but discarded.  When no message
matches any trigger word and none contains a link, every trigger entry is
the zero record and the links list is empty, while the 24-slot histogram is
still fully present. -/
theorem c2_no_important_set_amended (p : String → Option PyDateTime)
    (el : String → List String) (msgs : List StatMessage) (tws : List String)
    (hmatch : ∀ m ∈ msgs, ∀ w ∈ tws, strContains (pyOrStr m.text "") w = false)
    (hlinks : ∀ m ∈ msgs, el (pyOrStr m.text "") = []) :
    "important_messages" ∉ generate_message_statistics_keys ∧
    (generate_message_statistics p el msgs tws).links = [] ∧
    (∀ w t, lookupA w (generate_message_statistics p el msgs tws).trigger_frequency =
      some t → t = ⟨0, []⟩) ∧
    (generate_message_statistics p el msgs tws).frequency_hourly.length = 24 := by
  obtain ⟨ht, hl⟩ := genFold_no_matches p el tws msgs
    ⟨initTrigger tws, List.replicate 24 0, [], [], []⟩ hmatch hlinks
  obtain ⟨hlen, _⟩ := genFold_hourly p el tws msgs
    ⟨initTrigger tws, List.replicate 24 0, [], [], []⟩ (by simp)
  refine ⟨by decide, ?_, ?_, ?_⟩
  · unfold generate_message_statistics
    exact hl
  · intro w t hw
    unfold generate_message_statistics at hw
    simp only at hw
    rw [ht] at hw
    exact initTrigger_lookup tws w t hw
  · unfold generate_message_statistics
    exact hlen

/-- Witness for the amended C2: one parseable message, a trigger list that
matches nothing, a link extractor that finds nothing. -/
theorem c2_no_important_set_amended_witness :
    ((∀ m ∈ cexMessages, ∀ w ∈ (["zzz"] : List String),
        strContains (pyOrStr m.text "") w = false) ∧
     (∀ m ∈ cexMessages, (fun (_ : String) => ([] : List String)) (pyOrStr m.text "") = [])) ∧
    ("important_messages" ∉ generate_message_statistics_keys ∧
     (generate_message_statistics cexParse (fun _ => []) cexMessages ["zzz"]).links = [] ∧
     (∀ w t, lookupA w (generate_message_statistics cexParse (fun _ => [])
        cexMessages ["zzz"]).trigger_frequency = some t → t = ⟨0, []⟩) ∧
     (generate_message_statistics cexParse (fun _ => [])
        cexMessages ["zzz"]).frequency_hourly.length = 24) :=
  ⟨⟨by decide, by decide⟩,
    c2_no_important_set_amended cexParse (fun _ => []) cexMessages ["zzz"]
      (by decide) (by decide)⟩

/-! ## Claim C5 — selection policy of `get_next_available_account` -/

theorem availCheck_usage (now : Int) (o a : Account) (h : availCheck now o = some a) :
    a.usage_count = o.usage_count := by
  unfold availCheck at h
  rcases o with ⟨u, lu, rl⟩
  cases rl with
  | empty => cases h; rfl
  | bad => cases h; rfl
  | stamp t =>
    simp only at h
    split_ifs at h
    cases h
    rfl

theorem availCheck_lapsed (now : Int) (o a : Account) (h : availCheck now o = some a) :
    ∀ t, o.rate_limited_until = RateLimitStamp.stamp t → now > t := by
  intro t ht
  unfold availCheck at h
  rcases o with ⟨u, lu, rl⟩
  simp only at ht
  subst ht
  simp only at h
  split_ifs at h with hnow
  exact hnow

theorem availCheck_cleared (now : Int) (o a : Account) (h : availCheck now o = some a) :
    ∀ t, a.rate_limited_until ≠ RateLimitStamp.stamp t := by
  intro t ht
  unfold availCheck at h
  rcases o with ⟨u, lu, rl⟩
  cases rl with
  | empty =>
    cases h
    simp at ht
  | bad =>
    cases h
    simp at ht
  | stamp t2 =>
    simp only at h
    split_ifs at h
    cases h
    simp at ht

/-- Characterization of membership in the availability scan. -/
theorem availFrom_mem_iff (now : Int) :
    ∀ (l : List Account) (start i : Nat) (a : Account),
    (i, a) ∈ availableAccountsFrom now start l ↔
      ∃ j orig, i = start + j ∧ l[j]? = some orig ∧ availCheck now orig = some a := by
  intro l
  induction l with
  | nil =>
    intro start i a
    simp [availableAccountsFrom]
  | cons x rest ih =>
    intro start i a
    constructor
    · intro hmem
      simp only [availableAccountsFrom] at hmem
      cases hx : availCheck now x with
      | some a2 =>
        rw [hx] at hmem
        rcases List.mem_cons.mp hmem with heq | hmem2
        · rw [Prod.mk.injEq] at heq
          obtain ⟨rfl, rfl⟩ := heq
          exact ⟨0, x, by omega, by simp, hx⟩
        · obtain ⟨j, orig, hi, hj, hc⟩ := (ih (start + 1) i a).mp hmem2
          exact ⟨j + 1, orig, by omega, by simpa using hj, hc⟩
      | none =>
        rw [hx] at hmem
        obtain ⟨j, orig, hi, hj, hc⟩ := (ih (start + 1) i a).mp hmem
        exact ⟨j + 1, orig, by omega, by simpa using hj, hc⟩
    · rintro ⟨j, orig, rfl, hj, hc⟩
      simp only [availableAccountsFrom]
      cases j with
      | zero =>
        simp only [List.getElem?_cons_zero, Option.some.injEq] at hj
        subst hj
        rw [hc]
        exact List.mem_cons.mpr (Or.inl (by simp))
      | succ j2 =>
        simp only [List.getElem?_cons_succ] at hj
        have hmem2 := (ih (start + 1) (start + (j2 + 1)) a).mpr
          ⟨j2, orig, by omega, hj, hc⟩
        cases hx : availCheck now x with
        | some a2 => exact List.mem_cons.mpr (Or.inr hmem2)
        | none => exact hmem2

theorem availFrom_start_le (now : Int) :
    ∀ (l : List Account) (start : Nat) (q : Nat × Account),
    q ∈ availableAccountsFrom now start l → start ≤ q.1 := by
  intro l
  induction l with
  | nil => intro start q h; simp [availableAccountsFrom] at h
  | cons x rest ih =>
    intro start q h
    simp only [availableAccountsFrom] at h
    cases hx : availCheck now x with
    | some a2 =>
      rw [hx] at h
      rcases List.mem_cons.mp h with rfl | h2
      · simp
      · have := ih (start + 1) q h2
        omega
    | none =>
      rw [hx] at h
      have := ih (start + 1) q h
      omega

theorem availFrom_indices_sorted (now : Int) :
    ∀ (l : List Account) (start : Nat),
    List.Pairwise (fun p q : Nat × Account => p.1 < q.1)
      (availableAccountsFrom now start l) := by
  intro l
  induction l with
  | nil => intro start; simp [availableAccountsFrom]
  | cons x rest ih =>
    intro start
    simp only [availableAccountsFrom]
    cases hx : availCheck now x with
    | some a2 =>
      refine List.pairwise_cons.mpr ⟨?_, ih (start + 1)⟩
      intro q hq
      have := availFrom_start_le now rest (start + 1) q hq
      omega
    | none => exact ih (start + 1)

/-- C5: whenever `get_next_available_account` succeeds on a (non-empty)
pool, the returned index denotes an account whose rate limit has lapsed or
is unset (never one whose `rate_limited_until` lies in the future), whose
`usage_count` is minimal among all available accounts, and which is the
lowest-indexed account among those tied at that minimal usage count. -/
theorem c5_next_available_policy (accounts : List Account) (now : Int)
    (acct : Account) (i : Nat) (_hne : accounts ≠ [])
    (hok : get_next_available_account accounts now = Except.ok (acct, i)) :
    ∃ orig, accounts[i]? = some orig ∧
      availCheck now orig = some acct ∧
      (∀ t, orig.rate_limited_until = RateLimitStamp.stamp t → now > t) ∧
      (∀ t, acct.rate_limited_until ≠ RateLimitStamp.stamp t) ∧
      acct.usage_count = orig.usage_count ∧
      (∀ (j : Nat) (oj aj : Account), accounts[j]? = some oj →
        availCheck now oj = some aj → orig.usage_count ≤ oj.usage_count) ∧
      (∀ (j : Nat) (oj aj : Account), j < i → accounts[j]? = some oj →
        availCheck now oj = some aj → orig.usage_count < oj.usage_count) := by
  unfold get_next_available_account at hok
  split_ifs at hok with h1 h2
  cases hsort : stableSortBy
      (fun x y : Nat × Account => decide (x.2.usage_count < y.2.usage_count))
      (availableAccounts accounts now) with
  | nil => rw [hsort] at hok; cases hok
  | cons hd tl =>
    rw [hsort] at hok
    obtain ⟨hd1, hd2⟩ := hd
    simp only [Except.ok.injEq, Prod.mk.injEq] at hok
    obtain ⟨rfl, rfl⟩ := hok
    have hasym : ∀ p q : Nat × Account,
        decide (p.2.usage_count < q.2.usage_count) = true →
        decide (q.2.usage_count < p.2.usage_count) = false := by
      intro p q h
      simp at h ⊢
      omega
    have hneg : ∀ p q r : Nat × Account,
        decide (p.2.usage_count < q.2.usage_count) = false →
        decide (q.2.usage_count < r.2.usage_count) = false →
        decide (p.2.usage_count < r.2.usage_count) = false := by
      intro p q r hpq hqr
      simp at hpq hqr ⊢
      omega
    have hmin := stableSortBy_head_min _ hasym hneg _ _ _ hsort
    have hmem : (hd1, hd2) ∈ availableAccounts accounts now := by
      have : (hd1, hd2) ∈ stableSortBy
          (fun x y : Nat × Account => decide (x.2.usage_count < y.2.usage_count))
          (availableAccounts accounts now) := by
        rw [hsort]
        exact List.mem_cons.mpr (Or.inl rfl)
      exact (stableSortBy_mem _ _ _).mp this
    obtain ⟨j0, orig, hi0, hj0, hc0⟩ :=
      (availFrom_mem_iff now accounts 0 hd1 hd2).mp hmem
    have hj0i : hd1 = j0 := by omega
    subst hj0i
    refine ⟨orig, hj0, hc0, availCheck_lapsed now orig hd2 hc0,
      availCheck_cleared now orig hd2 hc0,
      availCheck_usage now orig hd2 hc0, ?_, ?_⟩
    · intro j oj aj hjv hjc
      have hjmem : (j, aj) ∈ availableAccounts accounts now :=
        (availFrom_mem_iff now accounts 0 j aj).mpr ⟨j, oj, by omega, hjv, hjc⟩
      have := hmin (j, aj) hjmem
      simp at this
      have husage := availCheck_usage now oj aj hjc
      have husage2 := availCheck_usage now orig hd2 hc0
      omega
    · intro j oj aj hji hjv hjc
      have hjmem : (j, aj) ∈ availableAccounts accounts now :=
        (availFrom_mem_iff now accounts 0 j aj).mpr ⟨j, oj, by omega, hjv, hjc⟩
      obtain ⟨l1, l2, hdecomp, hl1⟩ := stableSortBy_head_stable _ _ _ _ hsort
      have hsorted : List.Pairwise (fun p q : Nat × Account => p.1 < q.1)
          (availableAccounts accounts now) := availFrom_indices_sorted now accounts 0
      rw [hdecomp] at hsorted hjmem
      rcases List.mem_append.mp hjmem with hin1 | hin2
      · have := hl1 (j, aj) hin1
        simp at this
        have husage := availCheck_usage now oj aj hjc
        have husage2 := availCheck_usage now orig hd2 hc0
        omega
      · rcases List.mem_cons.mp hin2 with heq | hin3
        · have : j = hd1 := congrArg Prod.fst heq
          omega
        · obtain ⟨-, hpair, -⟩ := List.pairwise_append.mp hsorted
          have := (List.pairwise_cons.mp hpair).1 (j, aj) hin3
          simp at this
          omega

/-- Witness pool for C5: usage counts [5, 2, 2], no active rate limits. -/
def wAccounts : List Account :=
  [⟨5, none, RateLimitStamp.empty⟩, ⟨2, none, RateLimitStamp.empty⟩,
   ⟨2, none, RateLimitStamp.empty⟩]

/-- Witness for C5: on usage counts [5, 2, 2] the pool returns the account
at index 1 — the lowest index among the two tied at usage_count 2 — and the
selection-policy facts hold there. -/
theorem c5_next_available_policy_witness :
    (wAccounts ≠ [] ∧
     get_next_available_account wAccounts 0 =
       Except.ok (⟨2, none, RateLimitStamp.empty⟩, 1)) ∧
    (∃ orig, wAccounts[1]? = some orig ∧
      availCheck 0 orig = some ⟨2, none, RateLimitStamp.empty⟩ ∧
      (∀ t, orig.rate_limited_until = RateLimitStamp.stamp t → 0 > t) ∧
      (∀ t, (⟨2, none, RateLimitStamp.empty⟩ : Account).rate_limited_until ≠
        RateLimitStamp.stamp t) ∧
      (⟨2, none, RateLimitStamp.empty⟩ : Account).usage_count = orig.usage_count ∧
      (∀ (j : Nat) (oj aj : Account), wAccounts[j]? = some oj →
        availCheck 0 oj = some aj → orig.usage_count ≤ oj.usage_count) ∧
      (∀ (j : Nat) (oj aj : Account), j < 1 → wAccounts[j]? = some oj →
        availCheck 0 oj = some aj → orig.usage_count < oj.usage_count)) :=
  ⟨⟨by decide, by rfl⟩,
    c5_next_available_policy wAccounts 0 ⟨2, none, RateLimitStamp.empty⟩ 1
      (by decide) (by rfl)⟩

/-! ## Claim C10 — out-of-range indices are silent no-ops -/

/-- C10: for every index outside the loaded account list (negative or at
least the list length), `update_account_usage` and
`mark_account_rate_limited` raise nothing, change no account record and
perform no save (no file content is written). -/
theorem c10_out_of_range_noop (accounts : List Account) (current_index : Nat)
    (account_index : Int) (now_iso : String) (now wait_seconds : Int)
    (h : account_index < 0 ∨ (accounts.length : Int) ≤ account_index) :
    update_account_usage accounts current_index account_index now_iso = none ∧
    mark_account_rate_limited accounts current_index account_index now wait_seconds = none := by
  have hn : ¬ (0 ≤ account_index ∧ account_index < (accounts.length : Int)) := by omega
  constructor
  · unfold update_account_usage
    rw [if_neg hn]
  · unfold mark_account_rate_limited
    rw [if_neg hn]

/-- Witness for C10: a one-account pool with indices 5 and -1. -/
theorem c10_out_of_range_noop_witness :
    ((5 : Int) < 0 ∨ ((1 : Nat) : Int) ≤ 5) ∧
    (update_account_usage [⟨0, none, RateLimitStamp.empty⟩] 0 5 "now" = none ∧
     mark_account_rate_limited [⟨0, none, RateLimitStamp.empty⟩] 0 5 7 3600 = none) :=
  ⟨by norm_num,
    c10_out_of_range_noop [⟨0, none, RateLimitStamp.empty⟩] 0 5 "now" 7 3600 (by norm_num)⟩

/-! ## Claim C1 — pool errors are retried, not surfaced immediately -/

theorem availCheck_none_of_future (now2 t : Int) (a : Account)
    (hrl : a.rate_limited_until = RateLimitStamp.stamp t) (hf : ¬ now2 > t) :
    availCheck now2 a = none := by
  rcases a with ⟨u, lu, rl⟩
  simp only at hrl
  subst hrl
  simp only [availCheck]
  rw [if_neg hf]

theorem availFrom_nil (now2 : Int) :
    ∀ (l : List Account) (start : Nat),
    (∀ a ∈ l, availCheck now2 a = none) → availableAccountsFrom now2 start l = [] := by
  intro l
  induction l with
  | nil => intro start _; rfl
  | cons x rest ih =>
    intro start hall
    simp only [availableAccountsFrom]
    rw [hall x (by simp)]
    exact ih (start + 1) (fun a ha => hall a (List.mem_cons_of_mem _ ha))

/-- C1 (amended): a call made while the pool is empty, or while every
identity stays rate-limited through the whole call (including the two
2-second backoff sleeps), does NOT fail immediately with the pool error:
the generic exception handler retries the pool error three times with a
2-second sleep between attempts, never touches the network (the failure
precedes session creation, so the trace holds exactly the two sleeps and
no `netAttempt`), leaves the accounts file untouched, and finally raises
the wrapper error "Failed after 3 attempts: <pool message>". -/
theorem c1_pool_errors_retried {ρ : Type} (net : Nat → Account → NetOutcome ρ)
    (channel : String) (accounts : List Account) (ci : Nat) (now : Int)
    (h : accounts = [] ∨ ∀ a ∈ accounts, ∃ t,
      a.rate_limited_until = RateLimitStamp.stamp t ∧ now + 4 ≤ t) :
    get_messages net channel accounts ci now =
      (Except.error ("Failed after 3 attempts: " ++ poolErrorMsg
        (if accounts.isEmpty then PoolError.noAccountsConfigured
         else PoolError.allAccountsRateLimited)),
       ⟨accounts, ci, now + 4, [ExtractEvent.sleepTwo, ExtractEvent.sleepTwo]⟩) := by
  have hclass : ∀ pe, isNotFoundClass (poolErrorMsg pe) = false := by
    intro pe
    cases pe <;> decide
  have hpool : ∀ now2 : Int, now2 ≤ now + 4 →
      get_next_available_account accounts now2 =
        Except.error (if accounts.isEmpty then PoolError.noAccountsConfigured
          else PoolError.allAccountsRateLimited) := by
    intro now2 hle
    rcases h with rfl | hall
    · rfl
    · by_cases hemp : accounts.isEmpty
      · unfold get_next_available_account
        rw [if_pos hemp, if_pos hemp]
      · have hnil : availableAccounts accounts now2 = [] := by
          unfold availableAccounts
          apply availFrom_nil
          intro a ha
          obtain ⟨t, hrl, hts⟩ := hall a ha
          exact availCheck_none_of_future now2 t a hrl (by omega)
        unfold get_next_available_account
        rw [if_neg hemp, if_neg hemp, hnil]
        simp
  have hstep : ∀ (k : Nat) (st : ExtractState), st.accounts = accounts →
      st.now ≤ now + 4 →
      getMessagesGo net channel (k + 1) st =
        if k = 0 then
          (Except.error ("Failed after 3 attempts: " ++ poolErrorMsg
            (if accounts.isEmpty then PoolError.noAccountsConfigured
             else PoolError.allAccountsRateLimited)), st)
        else getMessagesGo net channel k (sleepTwoSec st) := by
    intro k st hacc hnow
    simp only [getMessagesGo]
    rw [hacc, hpool st.now hnow]
    simp [hclass]
  have hfinal : sleepTwoSec (sleepTwoSec ⟨accounts, ci, now, []⟩) =
      (⟨accounts, ci, now + 4,
        [ExtractEvent.sleepTwo, ExtractEvent.sleepTwo]⟩ : ExtractState) := by
    simp only [sleepTwoSec, List.nil_append, List.cons_append]
    refine congrArg (fun n => ExtractState.mk accounts ci n _) ?_
    omega
  have e1 := hstep 2 ⟨accounts, ci, now, []⟩ rfl (by show now ≤ now + 4; omega)
  have e2 := hstep 1 (sleepTwoSec ⟨accounts, ci, now, []⟩) rfl
    (by show now + 2 ≤ now + 4; omega)
  have e3 := hstep 0 (sleepTwoSec (sleepTwoSec ⟨accounts, ci, now, []⟩)) rfl
    (by show now + 2 + 2 ≤ now + 4; omega)
  show getMessagesGo net channel (2 + 1) ⟨accounts, ci, now, []⟩ = _
  rw [e1]
  simp only [if_neg (by omega : ¬ (2 : Nat) = 0)]
  show getMessagesGo net channel (1 + 1) _ = _
  rw [e2]
  simp only [if_neg (by omega : ¬ (1 : Nat) = 0)]
  show getMessagesGo net channel (0 + 1) _ = _
  rw [e3, hfinal]
  simp

/-- The network oracle of the C1 counterexample (never reached). -/
def cexNet : Nat → Account → NetOutcome Unit := fun _ _ => NetOutcome.err "boom"

/-- C1 (counterexample): with an empty pool, `get_messages` does not fail
immediately with the pool error: it performs two backoff sleeps (so the
trace is non-empty and contains no network attempt), and the surfaced
error is the retry wrapper "Failed after 3 attempts: ...", not
`NoAccountsConfigured`'s own message. -/
theorem c1_pool_errors_counterexample :
    (get_messages cexNet "chan" [] 0 0).1 =
      Except.error "Failed after 3 attempts: No Telegram accounts configured" ∧
    (get_messages cexNet "chan" [] 0 0).1 ≠
      Except.error (poolErrorMsg PoolError.noAccountsConfigured) ∧
    (get_messages cexNet "chan" [] 0 0).2.trace =
      [ExtractEvent.sleepTwo, ExtractEvent.sleepTwo] := by
  refine ⟨rfl, ?_, rfl⟩
  intro hcontra
  have h1 : (get_messages cexNet "chan" [] 0 0).1 =
      Except.error "Failed after 3 attempts: No Telegram accounts configured" := rfl
  rw [h1] at hcontra
  have h2 := Except.error.inj hcontra
  exact absurd h2 (by decide)

/-- A pool of one account rate-limited far into the future, for the C1
witness. -/
def wLimited : List Account := [⟨1, none, RateLimitStamp.stamp 100⟩]

/-- Witness for the amended C1 at a concrete all-rate-limited pool. -/
theorem c1_pool_errors_retried_witness :
    (wLimited = [] ∨ ∀ a ∈ wLimited, ∃ t,
      a.rate_limited_until = RateLimitStamp.stamp t ∧ (0 : Int) + 4 ≤ t) ∧
    get_messages cexNet "chan" wLimited 0 0 =
      (Except.error ("Failed after 3 attempts: " ++ poolErrorMsg
        (if wLimited.isEmpty then PoolError.noAccountsConfigured
         else PoolError.allAccountsRateLimited)),
       ⟨wLimited, 0, 0 + 4, [ExtractEvent.sleepTwo, ExtractEvent.sleepTwo]⟩) := by
  have hhyp : wLimited = [] ∨ ∀ a ∈ wLimited, ∃ t,
      a.rate_limited_until = RateLimitStamp.stamp t ∧ (0 : Int) + 4 ≤ t := by
    right
    intro a ha
    rw [show wLimited = [⟨1, none, RateLimitStamp.stamp 100⟩] from rfl,
      List.mem_singleton] at ha
    subst ha
    exact ⟨100, rfl, by omega⟩
  exact ⟨hhyp, c1_pool_errors_retried cexNet "chan" wLimited 0 0 hhyp⟩

/-! ## Claim C4 — `fetch_since` returns only strictly newer messages, ascending -/

/-- Everything the since-loop collects comes from the stream and postdates
`since` strictly (the loop breaks at the first message at or before
`since`, and nothing collected earlier can violate the guard). -/
theorem collectSince_mem (enc : Int → String) (since : Int) :
    ∀ (l : List RawMsg) (mo : MsgOut), mo ∈ collectSince enc since l →
    ∃ m ∈ l, mo = buildMsgOut enc m ∧ since < m.date := by
  intro l
  induction l with
  | nil => intro mo h; simp [collectSince] at h
  | cons m rest ih =>
    intro mo h
    simp only [collectSince] at h
    split_ifs at h with h1 h2
    · simp at h
    · obtain ⟨m2, hm2, hb, hd⟩ := ih mo h
      exact ⟨m2, List.mem_cons_of_mem _ hm2, hb, hd⟩
    · rcases List.mem_cons.mp h with rfl | h3
      · exact ⟨m, by simp, rfl, by omega⟩
      · obtain ⟨m2, hm2, hb, hd⟩ := ih mo h3
        exact ⟨m2, List.mem_cons_of_mem _ hm2, hb, hd⟩

theorem effectiveStream_subset (limit : Option Nat) (stream : List RawMsg) :
    ∀ m ∈ effectiveStream limit stream, m ∈ stream := by
  intro m hm
  cases limit with
  | none => exact hm
  | some n =>
    simp only [effectiveStream] at hm
    split_ifs at hm
    · exact hm
    · exact List.take_subset n stream hm

/-- C4: assuming the channel client yields messages newest-first with
monotonically decreasing timestamps, and the isoformat encoding is
order-preserving on the instants involved, every message returned by
`_get_messages_since_async` has a timestamp strictly greater than `since`,
and the returned list is in ascending timestamp order. -/
theorem c4_fetch_since_filtered_sorted (enc : Int → String) (since : Int)
    (limit : Option Nat) (stream : List RawMsg)
    (_hdec : List.Pairwise (fun a b => b.date < a.date) stream)
    (henc : ∀ s t : Int,
      (s = since ∨ s ∈ stream.map RawMsg.date) →
      (t = since ∨ t ∈ stream.map RawMsg.date) →
      (s < t ↔ strLt (enc s) (enc t) = true)) :
    (∀ mo ∈ get_messages_since_messages enc since limit stream,
      strLt (enc since) mo.timestamp_raw = true) ∧
    List.Pairwise (fun x y => strLt y.timestamp_raw x.timestamp_raw = false)
      (get_messages_since_messages enc since limit stream) := by
  constructor
  · intro mo hmo
    unfold get_messages_since_messages at hmo
    have hcoll := (stableSortBy_perm _ _).mem_iff.mp hmo
    obtain ⟨m, hm, rfl, hd⟩ := collectSince_mem enc since _ mo hcoll
    have hms : m ∈ stream := effectiveStream_subset limit stream m hm
    have := (henc since m.date (Or.inl rfl)
      (Or.inr (List.mem_map_of_mem RawMsg.date hms))).mp hd
    exact this
  · unfold get_messages_since_messages
    exact stableSortBy_pairwise
      (fun x y : MsgOut => strLt x.timestamp_raw y.timestamp_raw)
      (fun a b hab => strLt_asymm _ _ hab)
      (fun a b c hab hbc => strLt_negtrans _ _ _ hab hbc)
      _

/-- Witness stream for C4: a single message with text, at instant 5. -/
def wStream : List RawMsg := [⟨1, 5, "hello", "Bob", none, 9⟩]

/-- Witness encoding for C4: instant 5 encodes to "b", everything else to
"a". -/
def wEnc : Int → String := fun i => if i = 5 then "b" else "a"

/-- Witness for C4 on a one-message newest-first stream. -/
theorem c4_fetch_since_filtered_sorted_witness :
    (List.Pairwise (fun a b : RawMsg => b.date < a.date) wStream ∧
     (∀ s t : Int,
      (s = 0 ∨ s ∈ wStream.map RawMsg.date) →
      (t = 0 ∨ t ∈ wStream.map RawMsg.date) →
      (s < t ↔ strLt (wEnc s) (wEnc t) = true))) ∧
    ((∀ mo ∈ get_messages_since_messages wEnc 0 none wStream,
      strLt (wEnc 0) mo.timestamp_raw = true) ∧
    List.Pairwise (fun x y : MsgOut => strLt y.timestamp_raw x.timestamp_raw = false)
      (get_messages_since_messages wEnc 0 none wStream)) := by
  have hdec : List.Pairwise (fun a b : RawMsg => b.date < a.date) wStream := by
    simp [wStream]
  have henc : ∀ s t : Int,
      (s = 0 ∨ s ∈ wStream.map RawMsg.date) →
      (t = 0 ∨ t ∈ wStream.map RawMsg.date) →
      (s < t ↔ strLt (wEnc s) (wEnc t) = true) := by
    intro s t hs ht
    have hs2 : s = 0 ∨ s = 5 := by
      rcases hs with rfl | hs
      · exact Or.inl rfl
      · simp [wStream] at hs
        exact Or.inr hs
    have ht2 : t = 0 ∨ t = 5 := by
      rcases ht with rfl | ht
      · exact Or.inl rfl
      · simp [wStream] at ht
        exact Or.inr ht
    rcases hs2 with rfl | rfl <;> rcases ht2 with rfl | rfl <;> decide
  exact ⟨⟨hdec, henc⟩,
    c4_fetch_since_filtered_sorted wEnc 0 none wStream hdec henc⟩

/-! ## Claim C8 — day-aligned greedy chunking -/

theorem charListLt_connex : ∀ a b : List Char, a ≠ b →
    charListLt a b = true ∨ charListLt b a = true := by
  intro a
  induction a with
  | nil =>
    intro b hne
    cases b with
    | nil => exact absurd rfl hne
    | cons y ys => exact Or.inl rfl
  | cons x xs ih =>
    intro b hne
    cases b with
    | nil => exact Or.inr rfl
    | cons y ys =>
      by_cases h1 : x.toNat < y.toNat
      · left
        simp [charListLt, h1]
      · by_cases h2 : y.toNat < x.toNat
        · right
          simp [charListLt, h2]
        · have h3 : x.toNat = y.toNat := by omega
          have hxy : x = y := Char.ext (UInt32.ext h3)
          subst hxy
          have hne2 : xs ≠ ys := fun he => hne (by rw [he])
          rcases ih ys hne2 with hl | hr
          · left
            simp [charListLt, h1, h2, hl]
          · right
            simp [charListLt, h1, h2, hr]

theorem strLt_connex (a b : String) (hne : a ≠ b) :
    strLt a b = true ∨ strLt b a = true := by
  apply charListLt_connex
  intro he
  have hdata : a.data = b.data := he
  exact hne (by cases a; cases b; exact congrArg String.mk hdata)

theorem lookupA_mem (k : String) (m : List (String × β)) (v : β)
    (h : lookupA k m = some v) : (k, v) ∈ m := by
  induction m with
  | nil => simp [lookupA] at h
  | cons kv rest ih =>
    obtain ⟨kh, vh⟩ := kv
    simp only [lookupA] at h
    split_ifs at h with hk
    · cases h
      subst hk
      exact List.mem_cons.mpr (Or.inl rfl)
    · exact List.mem_cons_of_mem _ (ih h)

theorem lookupA_isSome_of_mem_keys (k : String) (m : List (String × β))
    (h : k ∈ m.map Prod.fst) : ∃ v, lookupA k m = some v := by
  cases hl : lookupA k m with
  | some v => exact ⟨v, rfl⟩
  | none => exact absurd h ((lookupA_eq_none_iff k m).mp hl)

theorem keysA_upsertA (k : String) (d : β) (f : β → β) (m : List (String × β)) :
    (upsertA k d f m).map Prod.fst = m.map Prod.fst ∨
    (upsertA k d f m).map Prod.fst = m.map Prod.fst ++ [k] := by
  unfold upsertA
  cases lookupA k m with
  | some v =>
    left
    exact keysA_updateA k f m
  | none =>
    right
    simp

/-- Value preservation through an in-place dict update. -/
theorem updateA_value_prop (P : β → Prop) (k : String) (f : β → β)
    (m : List (String × β)) (hm : ∀ p ∈ m, P p.2) (hf : ∀ v, P v → P (f v)) :
    ∀ p ∈ updateA k f m, P p.2 := by
  induction m with
  | nil => intro p hp; simp [updateA] at hp
  | cons kv rest ih =>
    obtain ⟨kh, vh⟩ := kv
    intro p hp
    simp only [updateA] at hp
    split_ifs at hp with hk
    · rcases List.mem_cons.mp hp with rfl | h2
      · exact hf vh (hm (kh, vh) (by simp))
      · exact hm p (List.mem_cons_of_mem _ h2)
    · rcases List.mem_cons.mp hp with rfl | h2
      · exact hm (kh, vh) (by simp)
      · exact ih (fun q hq => hm q (List.mem_cons_of_mem _ hq)) p h2

/-- Value preservation through a defaultdict upsert. -/
theorem upsertA_value_prop (P : β → Prop) (k : String) (d : β) (f : β → β)
    (m : List (String × β)) (hm : ∀ p ∈ m, P p.2) (hf : ∀ v, P v → P (f v))
    (hd : P (f d)) : ∀ p ∈ upsertA k d f m, P p.2 := by
  unfold upsertA
  cases lookupA k m with
  | some v => exact updateA_value_prop P k f m hm hf
  | none =>
    intro p hp
    rcases List.mem_append.mp hp with h2 | h2
    · exact hm p h2
    · rw [List.mem_singleton] at h2
      subst h2
      exact hd

/-- Every group built by `_group_messages_by_period` is non-empty and its
key comes from `dayOf`. -/
theorem groupByPeriod_props (dayOf : String → Option String) (messages : List ChMsg) :
    (∀ p ∈ groupByPeriod dayOf messages, p.2 ≠ [] ∧ ∃ ts, dayOf ts = some p.1) ∧
    ((groupByPeriod dayOf messages).map Prod.fst).Nodup := by
  unfold groupByPeriod
  have hgen : ∀ (msgs : List ChMsg) (acc : List (String × List ChMsg)),
      (∀ p ∈ acc, p.2 ≠ [] ∧ ∃ ts, dayOf ts = some p.1) →
      ((acc.map Prod.fst).Nodup) →
      (∀ p ∈ msgs.foldl (fun periods msg =>
          let timestamp_str := msg.timestamp_raw.getD (msg.timestamp.getD "")
          if timestamp_str = "" then periods
          else match dayOf timestamp_str with
            | none => periods
            | some period_key => upsertA period_key [] (fun l => l ++ [msg]) periods) acc,
        p.2 ≠ [] ∧ ∃ ts, dayOf ts = some p.1) ∧
      (((msgs.foldl (fun periods msg =>
          let timestamp_str := msg.timestamp_raw.getD (msg.timestamp.getD "")
          if timestamp_str = "" then periods
          else match dayOf timestamp_str with
            | none => periods
            | some period_key => upsertA period_key [] (fun l => l ++ [msg]) periods) acc).map
          Prod.fst).Nodup) := by
    intro msgs
    induction msgs with
    | nil => intro acc h1 h2; exact ⟨h1, h2⟩
    | cons msg rest ih =>
      intro acc h1 h2
      simp only [List.foldl_cons]
      set ts := msg.timestamp_raw.getD (msg.timestamp.getD "") with hts
      by_cases he : ts = ""
      · rw [if_pos he]
        exact ih acc h1 h2
      · rw [if_neg he]
        cases hd : dayOf ts with
        | none => exact ih acc h1 h2
        | some period_key =>
          apply ih
          · intro p hp
            refine ⟨?_, ?_⟩
            · refine upsertA_value_prop (fun v => v ≠ []) period_key [] _ acc
                (fun q hq => (h1 q hq).1) (fun v _ => by simp) (by simp) p hp
            · -- the key of p is an old key or period_key
              have hkey : p.1 ∈ (upsertA period_key [] (fun l => l ++ [msg]) acc).map
                  Prod.fst := List.mem_map_of_mem Prod.fst hp
              rcases keysA_upsertA period_key [] (fun l => l ++ [msg]) acc with hk | hk
              · rw [hk] at hkey
                obtain ⟨q, hq, hqe⟩ := List.mem_map.mp hkey
                obtain ⟨-, ts2, hts2⟩ := h1 q hq
                exact ⟨ts2, by rw [hts2, hqe]⟩
              · rw [hk] at hkey
                rcases List.mem_append.mp hkey with hold | hnew
                · obtain ⟨q, hq, hqe⟩ := List.mem_map.mp hold
                  obtain ⟨-, ts2, hts2⟩ := h1 q hq
                  exact ⟨ts2, by rw [hts2, hqe]⟩
                · rw [List.mem_singleton] at hnew
                  exact ⟨ts, by rw [hd, hnew]⟩
          · exact nodupKeys_upsertA period_key [] _ acc h2
  obtain ⟨ha, hb⟩ := hgen messages [] (by simp) (by simp)
  exact ⟨ha, hb⟩

/-- The chunk built from a list of whole days. -/
def chunkOfSeg (seg : List (String × List ChMsg)) : Chunk :=
  seg.foldl (fun c p => addDayToChunk c p.1 p.2) emptyChunk

theorem foldl_addDay_messages :
    ∀ (seg : List (String × List ChMsg)) (c : Chunk),
    (seg.foldl (fun c p => addDayToChunk c p.1 p.2) c).messages =
      c.messages ++ (seg.map Prod.snd).flatten := by
  intro seg
  induction seg with
  | nil => intro c; simp
  | cons p rest ih =>
    intro c
    simp only [List.foldl_cons, List.map_cons, List.flatten_cons]
    rw [ih]
    simp [addDayToChunk]

theorem chunkOfSeg_messages (seg : List (String × List ChMsg)) :
    (chunkOfSeg seg).messages = (seg.map Prod.snd).flatten := by
  unfold chunkOfSeg
  rw [foldl_addDay_messages]
  rfl

theorem foldl_addDay_start_some :
    ∀ (seg : List (String × List ChMsg)) (c : Chunk) (s : String),
    c.start_date = some s → s ≠ "" →
    (seg.foldl (fun c p => addDayToChunk c p.1 p.2) c).start_date = some s := by
  intro seg
  induction seg with
  | nil => intro c s h _; exact h
  | cons p rest ih =>
    intro c s h hs
    simp only [List.foldl_cons]
    refine ih _ s ?_ hs
    simp [addDayToChunk, h, hs]

theorem foldl_addDay_start_none :
    ∀ (seg : List (String × List ChMsg)) (c : Chunk),
    c.start_date = none → (∀ p ∈ seg, p.1 ≠ "") →
    (seg.foldl (fun c p => addDayToChunk c p.1 p.2) c).start_date =
      (seg.head?).map Prod.fst := by
  intro seg
  induction seg with
  | nil => intro c h _; simpa using h
  | cons p rest ih =>
    intro c h hk
    simp only [List.foldl_cons, List.head?_cons, Option.map_some']
    refine foldl_addDay_start_some rest _ p.1 ?_ (hk p (by simp))
    simp [addDayToChunk, h]

theorem chunkOfSeg_start (seg : List (String × List ChMsg))
    (hk : ∀ p ∈ seg, p.1 ≠ "") :
    (chunkOfSeg seg).start_date = (seg.head?).map Prod.fst :=
  foldl_addDay_start_none seg emptyChunk rfl hk

theorem foldl_addDay_end :
    ∀ (seg : List (String × List ChMsg)) (c : Chunk), seg ≠ [] →
    (seg.foldl (fun c p => addDayToChunk c p.1 p.2) c).end_date =
      (seg.getLast?).map Prod.fst := by
  intro seg
  induction seg using List.reverseRecOn with
  | nil => intro c h; exact absurd rfl h
  | append_singleton rest p ih =>
    intro c _
    rw [List.foldl_append, List.getLast?_concat]
    simp [addDayToChunk]

theorem chunkOfSeg_end (seg : List (String × List ChMsg)) (h : seg ≠ []) :
    (chunkOfSeg seg).end_date = (seg.getLast?).map Prod.fst :=
  foldl_addDay_end seg emptyChunk h

theorem chunkOfSeg_snoc (seg : List (String × List ChMsg)) (p : String × List ChMsg) :
    chunkOfSeg (seg ++ [p]) = addDayToChunk (chunkOfSeg seg) p.1 p.2 := by
  unfold chunkOfSeg
  rw [List.foldl_append]
  rfl

theorem chunkOfSeg_msglen (seg : List (String × List ChMsg)) :
    (chunkOfSeg seg).messages.length = (seg.map (fun p => p.2.length)).sum := by
  rw [chunkOfSeg_messages]
  induction seg with
  | nil => rfl
  | cons p rest ih => simp [ih]

theorem chunkOfSeg_messages_ne (seg : List (String × List ChMsg)) (hseg : seg ≠ [])
    (hne : ∀ p ∈ seg, p.2 ≠ []) : (chunkOfSeg seg).messages ≠ [] := by
  rw [chunkOfSeg_messages]
  cases seg with
  | nil => exact absurd rfl hseg
  | cons p rest =>
    simp only [List.map_cons, List.flatten_cons]
    intro hcontra
    exact hne p (by simp) (List.append_eq_nil.mp hcontra).1

/-- The chunking loop produces exactly the chunks of a greedy partition of
the day list into consecutive non-empty segments, closing a segment only
when adding the next whole day would exceed the limit. -/
theorem chunksAux_spec (maxSize : Nat) :
    ∀ (days seg0 : List (String × List ChMsg)),
    (∀ p ∈ seg0 ++ days, p.2 ≠ []) →
    ∃ segs : List (List (String × List ChMsg)),
      chunksAux maxSize days (chunkOfSeg seg0) = segs.map chunkOfSeg ∧
      segs.flatten = seg0 ++ days ∧
      (∀ s ∈ segs, s ≠ []) ∧
      ((segs = [] ∧ seg0 = [] ∧ days = []) ∨ ∃ t tl, segs = (seg0 ++ t) :: tl) ∧
      List.Chain' (fun s t =>
        maxSize < (s.map (fun p => p.2.length)).sum +
          t.head?.elim 0 (fun p => p.2.length)) segs := by
  intro days
  induction days with
  | nil =>
    intro seg0 hne
    by_cases hseg : seg0 = []
    · subst hseg
      refine ⟨[], ?_, by simp, by simp, Or.inl ⟨rfl, rfl, rfl⟩, by simp⟩
      simp [chunksAux, chunkOfSeg, emptyChunk]
    · have hmsg : (chunkOfSeg seg0).messages ≠ [] :=
        chunkOfSeg_messages_ne seg0 hseg (fun p hp => hne p (by simp [hp]))
      refine ⟨[seg0], ?_, by simp, by simp [hseg], Or.inr ⟨[], [], by simp⟩, by simp⟩
      simp only [chunksAux, List.map_cons, List.map_nil]
      rw [if_neg (by simpa using hmsg)]
  | cons day rest ih =>
    obtain ⟨d, ms⟩ := day
    intro seg0 hne
    simp only [chunksAux]
    by_cases hcond : (chunkOfSeg seg0).messages ≠ [] ∧
        maxSize < (chunkOfSeg seg0).messages.length + ms.length
    · rw [if_pos hcond]
      have hseg0ne : seg0 ≠ [] := by
        intro hcontra
        apply hcond.1
        rw [hcontra]
        rfl
      have hne2 : ∀ p ∈ [(d, ms)] ++ rest, p.2 ≠ [] := by
        intro p hp
        rcases List.mem_append.mp hp with h1 | h1
        · rw [List.mem_singleton] at h1
          subst h1
          exact hne (d, ms) (by simp)
        · exact hne p (by simp [h1])
      obtain ⟨segs', hmap, hflat, hne', hshape, hchain⟩ := ih [(d, ms)] hne2
      have hstep : addDayToChunk emptyChunk d ms = chunkOfSeg [(d, ms)] := rfl
      refine ⟨seg0 :: segs', ?_, ?_, ?_, Or.inr ⟨[], segs', by simp⟩, ?_⟩
      · simp only [List.map_cons]
        rw [hstep, hmap]
      · simp only [List.flatten_cons, hflat]
        simp
      · intro s hs
        rcases List.mem_cons.mp hs with rfl | hs2
        · exact hseg0ne
        · exact hne' s hs2
      · rcases hshape with ⟨-, habs, -⟩ | ⟨t, tl, hsegs⟩
        · exact absurd habs (by simp)
        · subst hsegs
          refine List.chain'_cons.mpr ⟨?_, hchain⟩
          simp only [List.cons_append, List.head?_cons, Option.elim_some]
          have := chunkOfSeg_msglen seg0
          omega
    · rw [if_neg hcond]
      have hstep : addDayToChunk (chunkOfSeg seg0) d ms = chunkOfSeg (seg0 ++ [(d, ms)]) :=
        (chunkOfSeg_snoc seg0 (d, ms)).symm
      rw [hstep]
      have hne2 : ∀ p ∈ (seg0 ++ [(d, ms)]) ++ rest, p.2 ≠ [] := by
        intro p hp
        rcases List.mem_append.mp hp with h1 | h1
        · rcases List.mem_append.mp h1 with h2 | h2
          · exact hne p (by simp [h2])
          · rw [List.mem_singleton] at h2
            subst h2
            exact hne (d, ms) (by simp)
        · exact hne p (by simp [h1])
      obtain ⟨segs', hmap, hflat, hne', hshape, hchain⟩ := ih (seg0 ++ [(d, ms)]) hne2
      refine ⟨segs', hmap, ?_, hne', ?_, hchain⟩
      · rw [hflat]
        simp
      · rcases hshape with ⟨-, habs, -⟩ | ⟨t, tl, hsegs⟩
        · exact absurd habs (by simp)
        · exact Or.inr ⟨(d, ms) :: t, tl, by rw [hsegs]; simp⟩

theorem sortedDayGroups_subset (dayOf : String → Option String) (messages : List ChMsg) :
    ∀ p ∈ sortedDayGroups dayOf messages, p ∈ groupByPeriod dayOf messages := by
  intro p hp
  unfold sortedDayGroups at hp
  obtain ⟨k, hk, rfl⟩ := List.mem_map.mp hp
  have hk2 : k ∈ (groupByPeriod dayOf messages).map Prod.fst :=
    (stableSortBy_mem _ _ _).mp hk
  obtain ⟨v, hv⟩ := lookupA_isSome_of_mem_keys k _ hk2
  rw [hv]
  simpa using lookupA_mem k _ v hv

theorem sortedDayGroups_sorted (dayOf : String → Option String) (messages : List ChMsg) :
    List.Pairwise (fun p q : String × List ChMsg => strLt p.1 q.1 = true)
      (sortedDayGroups dayOf messages) := by
  unfold sortedDayGroups
  apply List.pairwise_map.mpr
  have hnodup := (groupByPeriod_props dayOf messages).2
  have hsorted := stableSortBy_pairwise strLt
    (fun a b hab => strLt_asymm a b hab)
    (fun a b c hab hbc => strLt_negtrans a b c hab hbc)
    ((groupByPeriod dayOf messages).map Prod.fst)
  have hnd2 : (stableSortBy strLt ((groupByPeriod dayOf messages).map Prod.fst)).Nodup :=
    ((stableSortBy_perm _ _).nodup_iff).mpr hnodup
  refine (hsorted.and hnd2).imp ?_
  intro a b hab
  rcases strLt_connex a b hab.2 with h | h
  · exact h
  · exact absurd h (by simp [hab.1])

theorem chain'_of_flatten_pairwise {R : α → α → Prop} :
    ∀ (segs : List (List α)), List.Pairwise R segs.flatten →
    List.Chain' (fun s t => ∀ a ∈ s, ∀ b ∈ t, R a b) segs := by
  intro segs
  induction segs with
  | nil => intro _; simp
  | cons s rest ih =>
    intro h
    simp only [List.flatten_cons] at h
    obtain ⟨hs, hrest, hcross⟩ := List.pairwise_append.mp h
    cases rest with
    | nil => simp
    | cons t rest2 =>
      refine List.chain'_cons.mpr ⟨?_, ih hrest⟩
      intro a ha b hb
      exact hcross a ha b (by simp only [List.flatten_cons]; exact List.mem_append.mpr (Or.inl hb))

/-- Transfer a strict cross-ordering of day segments to the start/end
dates of the chunks they generate. -/
theorem chain'_chunks (segs : List (List (String × List ChMsg)))
    (hne : ∀ s ∈ segs, s ≠ [])
    (hkeys : ∀ s ∈ segs, ∀ p ∈ s, p.1 ≠ "")
    (hcross : List.Chain' (fun s t => ∀ a ∈ s, ∀ b ∈ t, strLt a.1 b.1 = true) segs) :
    List.Chain' (fun c1 c2 => ∀ e ∈ c1.end_date, ∀ st ∈ c2.start_date,
      strLt e st = true) (segs.map chunkOfSeg) := by
  induction segs with
  | nil => simp
  | cons s rest ihs =>
    cases rest with
    | nil => simp
    | cons t rest2 =>
      obtain ⟨hst, hcross2⟩ := List.chain'_cons.mp hcross
      refine List.chain'_cons.mpr ⟨?_, ?_⟩
      · intro e he st hst2
        have hsne := hne s (by simp)
        have htne := hne t (by simp)
        rw [chunkOfSeg_end s hsne] at he
        rw [chunkOfSeg_start t (hkeys t (by simp))] at hst2
        cases hlast : s.getLast? with
        | none => rw [hlast] at he; simp at he
        | some pl =>
          rw [hlast] at he
          simp only [Option.map_some', Option.mem_def, Option.some.injEq] at he
          cases hhead : t.head? with
          | none => rw [hhead] at hst2; simp at hst2
          | some ph =>
            rw [hhead] at hst2
            simp only [Option.map_some', Option.mem_def, Option.some.injEq] at hst2
            subst he
            subst hst2
            exact hst pl (List.mem_of_mem_getLast? hlast) ph (List.mem_of_mem_head? hhead)
      · exact ihs (fun s2 hs2 => hne s2 (by simp [hs2]))
          (fun s2 hs2 p hp => hkeys s2 (by simp [hs2]) p hp) hcross2

/-- C8: `_create_smart_chunks` partitions the sorted day list into
consecutive non-empty segments of WHOLE days: every chunk's message list is
the concatenation of its days' full groups (no calendar day is ever split
across two chunks, even a day larger than `max_chunk_size`); a chunk closes
exactly when adding the next whole day would exceed `max_chunk_size`; each
chunk's inclusive `[start_date, end_date]` range covers its own days, and
the ranges of consecutive chunks are strictly increasing, hence
non-overlapping. -/
theorem c8_smart_chunks (dayOf : String → Option String) (messages : List ChMsg)
    (max_chunk_size : Nat) (_hpos : 0 < max_chunk_size)
    (hday : ∀ ts d, dayOf ts = some d → d ≠ "") :
    ∃ segs : List (List (String × List ChMsg)),
      segs.flatten = sortedDayGroups dayOf messages ∧
      (∀ s ∈ segs, s ≠ []) ∧
      (_create_smart_chunks dayOf messages max_chunk_size).map Chunk.messages =
        segs.map (fun s => (s.map Prod.snd).flatten) ∧
      (_create_smart_chunks dayOf messages max_chunk_size).map Chunk.start_date =
        segs.map (fun s => (s.head?).map Prod.fst) ∧
      (_create_smart_chunks dayOf messages max_chunk_size).map Chunk.end_date =
        segs.map (fun s => (s.getLast?).map Prod.fst) ∧
      List.Chain' (fun s t =>
        max_chunk_size < (s.map (fun p => p.2.length)).sum +
          t.head?.elim 0 (fun p => p.2.length)) segs ∧
      List.Chain' (fun c1 c2 => ∀ e ∈ c1.end_date, ∀ st ∈ c2.start_date,
        strLt e st = true) (_create_smart_chunks dayOf messages max_chunk_size) := by
  have hgrp := (groupByPeriod_props dayOf messages).1
  have hdays : ∀ p ∈ sortedDayGroups dayOf messages, p.2 ≠ [] := by
    intro p hp
    exact (hgrp p (sortedDayGroups_subset dayOf messages p hp)).1
  have hkeys : ∀ p ∈ sortedDayGroups dayOf messages, p.1 ≠ "" := by
    intro p hp
    obtain ⟨-, ts, hts⟩ := hgrp p (sortedDayGroups_subset dayOf messages p hp)
    exact hday ts p.1 hts
  obtain ⟨segs, hmap, hflat, hne, -, hchain⟩ :=
    chunksAux_spec max_chunk_size (sortedDayGroups dayOf messages) []
      (by simpa using hdays)
  have hflat2 : segs.flatten = sortedDayGroups dayOf messages := by simpa using hflat
  have hchunks : _create_smart_chunks dayOf messages max_chunk_size =
      segs.map chunkOfSeg := hmap
  have hsegkeys : ∀ s ∈ segs, ∀ p ∈ s, p.1 ≠ "" := by
    intro s hs p hp
    apply hkeys
    rw [← hflat2]
    exact List.mem_flatten.mpr ⟨s, hs, hp⟩
  refine ⟨segs, hflat2, hne, ?_, ?_, ?_, hchain, ?_⟩
  · rw [hchunks, List.map_map]
    exact List.map_congr_left (fun s _ => chunkOfSeg_messages s)
  · rw [hchunks, List.map_map]
    exact List.map_congr_left (fun s hs => chunkOfSeg_start s (hsegkeys s hs))
  · rw [hchunks, List.map_map]
    exact List.map_congr_left (fun s hs => chunkOfSeg_end s (hne s hs))
  · rw [hchunks]
    exact chain'_chunks segs hne hsegkeys
      (chain'_of_flatten_pairwise segs (hflat2 ▸ sortedDayGroups_sorted dayOf messages))

/-- Witness day-keying for C8/C9: the timestamp "x" falls on day
2024-01-01, everything else is unparseable. -/
def wDayOf : String → Option String :=
  fun ts => if ts = "x" then some "2024-01-01" else none

theorem wDayOf_keys : ∀ ts d, wDayOf ts = some d → d ≠ "" := by
  intro ts d h
  by_cases hts : ts = "x"
  · simp [wDayOf, hts] at h
    subst h
    decide
  · simp [wDayOf, hts] at h

/-- Witness message list for C8: two messages on the same day. -/
def wChMsgs : List ChMsg :=
  [⟨some "x", none, some "bob", some "hi"⟩, ⟨some "x", none, some "eve", some "yo"⟩]

/-- Witness for C8 at a concrete two-message, one-day input. -/
theorem c8_smart_chunks_witness :
    ((0 : Nat) < 2 ∧ (∀ ts d, wDayOf ts = some d → d ≠ "")) ∧
    (∃ segs : List (List (String × List ChMsg)),
      segs.flatten = sortedDayGroups wDayOf wChMsgs ∧
      (∀ s ∈ segs, s ≠ []) ∧
      (_create_smart_chunks wDayOf wChMsgs 2).map Chunk.messages =
        segs.map (fun s => (s.map Prod.snd).flatten) ∧
      (_create_smart_chunks wDayOf wChMsgs 2).map Chunk.start_date =
        segs.map (fun s => (s.head?).map Prod.fst) ∧
      (_create_smart_chunks wDayOf wChMsgs 2).map Chunk.end_date =
        segs.map (fun s => (s.getLast?).map Prod.fst) ∧
      List.Chain' (fun s t =>
        2 < (s.map (fun p => p.2.length)).sum +
          t.head?.elim 0 (fun p => p.2.length)) segs ∧
      List.Chain' (fun c1 c2 => ∀ e ∈ c1.end_date, ∀ st ∈ c2.start_date,
        strLt e st = true) (_create_smart_chunks wDayOf wChMsgs 2)) :=
  ⟨⟨by decide, wDayOf_keys⟩, c8_smart_chunks wDayOf wChMsgs 2 (by decide) wDayOf_keys⟩

/-! ## Claim C9 — the Medium tier -/

theorem keysA_mem_upsertA_self (k : String) (d : β) (f : β → β) (m : List (String × β)) :
    k ∈ (upsertA k d f m).map Prod.fst := by
  unfold upsertA
  cases hl : lookupA k m with
  | some v =>
    rw [keysA_updateA]
    by_contra hmem
    rw [(lookupA_eq_none_iff k m).mpr hmem] at hl
    cases hl
  | none => simp

theorem keysA_mono_upsertA (k2 k : String) (d : β) (f : β → β) (m : List (String × β))
    (h : k2 ∈ m.map Prod.fst) : k2 ∈ (upsertA k d f m).map Prod.fst := by
  rcases keysA_upsertA k d f m with he | he <;> rw [he] <;> simp [h]

/-- A message with a non-empty parseable timestamp forces its day key into
the period map. -/
theorem groupByPeriod_key_of_mem (dayOf : String → Option String) (msgs : List ChMsg)
    (m : ChMsg) (k : String) (hm : m ∈ msgs)
    (hts : (m.timestamp_raw.getD (m.timestamp.getD "")) ≠ "")
    (hk : dayOf (m.timestamp_raw.getD (m.timestamp.getD "")) = some k) :
    k ∈ (groupByPeriod dayOf msgs).map Prod.fst := by
  unfold groupByPeriod
  suffices hgen : ∀ (msgs2 : List ChMsg) (acc : List (String × List ChMsg)),
      (m ∈ msgs2 ∨ k ∈ acc.map Prod.fst) →
      k ∈ ((msgs2.foldl (fun periods msg =>
        let timestamp_str := msg.timestamp_raw.getD (msg.timestamp.getD "")
        if timestamp_str = "" then periods
        else match dayOf timestamp_str with
          | none => periods
          | some period_key => upsertA period_key [] (fun l => l ++ [msg]) periods) acc).map
        Prod.fst) by
    exact hgen msgs [] (Or.inl hm)
  intro msgs2
  induction msgs2 with
  | nil =>
    intro acc h
    rcases h with h | h
    · simp at h
    · exact h
  | cons m2 rest ih =>
    intro acc h
    simp only [List.foldl_cons]
    apply ih
    rcases h with h | h
    · rcases List.mem_cons.mp h with rfl | h2
      · right
        rw [if_neg hts, hk]
        exact keysA_mem_upsertA_self k [] _ acc
      · exact Or.inl h2
    · right
      by_cases he : (m2.timestamp_raw.getD (m2.timestamp.getD "")) = ""
      · rwa [if_pos he]
      · rw [if_neg he]
        cases hd : dayOf (m2.timestamp_raw.getD (m2.timestamp.getD "")) with
        | none => exact h
        | some k2 => exact keysA_mono_upsertA k k2 [] _ acc h

theorem dailySummariesOf_ne_nil (dayOf : String → Option String) (msgs : List ChMsg)
    (h : ∃ m ∈ msgs, (m.timestamp_raw.getD (m.timestamp.getD "")) ≠ "" ∧
      (dayOf (m.timestamp_raw.getD (m.timestamp.getD ""))).isSome) :
    dailySummariesOf dayOf msgs ≠ [] := by
  obtain ⟨m, hm, hts, hsome⟩ := h
  obtain ⟨k, hk⟩ := Option.isSome_iff_exists.mp hsome
  have hkey := groupByPeriod_key_of_mem dayOf msgs m k hm hts hk
  obtain ⟨p, hpmem, hpk⟩ := List.mem_map.mp hkey
  have hpne : p.2 ≠ [] := ((groupByPeriod_props dayOf msgs).1 p hpmem).1
  have hpitems : p ∈ stableSortBy (fun a b : String × List ChMsg => strLt a.1 b.1)
      (groupByPeriod dayOf msgs) := (stableSortBy_mem _ _ _).mpr hpmem
  have hpfilt : p ∈ (stableSortBy (fun a b : String × List ChMsg => strLt a.1 b.1)
      (groupByPeriod dayOf msgs)).filter (fun q => ¬ q.2.isEmpty) :=
    List.mem_filter.mpr ⟨hpitems, by simpa using hpne⟩
  intro hcontra
  rw [show dailySummariesOf dayOf msgs =
      ((stableSortBy (fun a b : String × List ChMsg => strLt a.1 b.1)
        (groupByPeriod dayOf msgs)).filter (fun q => ¬ q.2.isEmpty)).map
        (fun q => daySummaryOf q.1 q.2) from rfl] at hcontra
  rw [List.map_eq_nil_iff] at hcontra
  rw [hcontra] at hpfilt
  simp at hpfilt

theorem pyTakeLast_length_le (n : Nat) (l : List α) : (pyTakeLast n l).length ≤ n := by
  simp [pyTakeLast]
  omega

/-- C9 (amended): for every input of N messages with 1000 ≤ N < 10000 in
which at least one message has a non-empty parseable timestamp,
`summarize_combined_messages` selects the Medium tier
(`_summarize_medium_dataset`); the per-day digests are built locally and
the call issues exactly one completion request — the gpt-4o-mini synthesis
call — whose prompt includes exactly the digests of the last
`min 20 totalDays` days (at most the last 20 day-digests). -/
theorem c9_medium_tier_amended (complete : CompletionCall → Except String String)
    (countTokens : PromptData → Nat) (dayOf : String → Option String)
    (msgs : List ChMsg) (channel lang : String)
    (h1 : 1000 ≤ msgs.length) (h2 : msgs.length < 10000)
    (h3 : ∃ m ∈ msgs, (m.timestamp_raw.getD (m.timestamp.getD "")) ≠ "" ∧
      (dayOf (m.timestamp_raw.getD (m.timestamp.getD ""))).isSome) :
    summarize_combined_messages complete countTokens dayOf msgs channel lang =
      _summarize_medium_dataset complete dayOf msgs channel
        ((lookupA (pyLower lang) supportedLanguages).getD ⟨"English", "English"⟩) ∧
    ∃ p : MediumPrompt,
      (summarize_combined_messages complete countTokens dayOf msgs channel lang).2 =
        [⟨"gpt-4o-mini", 3000, PromptData.mediumSynthesis p⟩] ∧
      p.summariesShown.length ≤ 20 ∧
      p.summariesShown = (pyTakeLast 20 (dailySummariesOf dayOf msgs)).map dayDigestTextOf := by
  have hdisp : summarize_combined_messages complete countTokens dayOf msgs channel lang =
      _summarize_medium_dataset complete dayOf msgs channel
        ((lookupA (pyLower lang) supportedLanguages).getD ⟨"English", "English"⟩) := by
    unfold summarize_combined_messages
    rw [if_neg (by omega), if_pos h2]
  refine ⟨hdisp, ?_⟩
  have hne := dailySummariesOf_ne_nil dayOf msgs h3
  set ds := dailySummariesOf dayOf msgs with hds
  set info := (lookupA (pyLower lang) supportedLanguages).getD
    (⟨"English", "English"⟩ : LangInfo) with hinfo
  cases hcase : ds with
  | nil => exact absurd hcase hne
  | cons s0 srest =>
    have hhead : ds.head? = some s0 := by rw [hcase]; rfl
    have hlast : ∃ sl, ds.getLast? = some sl := by
      rw [hcase]
      exact ⟨(s0 :: srest).getLast (by simp), List.getLast?_eq_getLast _ _⟩
    obtain ⟨sl, hsl⟩ := hlast
    refine ⟨⟨channel, msgs.length, s0.date, sl.date, ds.length,
      ((stableSortBy (fun a b : DaySummary =>
          decide (b.message_count < a.message_count)) ds).take 5).map
        (fun d => (d.date, d.message_count)),
      (pyTakeLast 20 ds).map dayDigestTextOf,
      if pyLower info.english = "english" then ""
      else "Provide the summary in " ++ info.english ++ " (" ++ info.native ++ ")."⟩,
      ?_, ?_, ?_⟩
    · rw [hdisp]
      have hprompt : _create_medium_synthesis_prompt channel msgs.length
          (dailySummariesOf dayOf msgs) info.english info.native =
          Except.ok ⟨channel, msgs.length, s0.date, sl.date, ds.length,
            ((stableSortBy (fun a b : DaySummary =>
                decide (b.message_count < a.message_count)) ds).take 5).map
              (fun d => (d.date, d.message_count)),
            (pyTakeLast 20 ds).map dayDigestTextOf,
            if pyLower info.english = "english" then ""
            else "Provide the summary in " ++ info.english ++ " (" ++
              info.native ++ ")."⟩ := by
        simp only [_create_medium_synthesis_prompt]
        rw [← hds, hhead, hsl]
      simp only [_summarize_medium_dataset]
      rw [hprompt]
    · show ((pyTakeLast 20 ds).map dayDigestTextOf).length ≤ 20
      rw [List.length_map]
      exact pyTakeLast_length_le 20 ds
    · rw [← hcase]

/-- Counterexample input for C9: 1500 messages whose timestamps never
parse. -/
def cexMsgs1500 : List ChMsg := List.replicate 1500 ⟨some "g", none, none, none⟩

/-- Completion oracle for the C9 counterexample (never reached). -/
def cexComplete : CompletionCall → Except String String := fun _ => Except.ok "s"

theorem groupByPeriod_eq_nil_of_none (dayOf : String → Option String) (msgs : List ChMsg)
    (h : ∀ m ∈ msgs, dayOf (m.timestamp_raw.getD (m.timestamp.getD "")) = none) :
    groupByPeriod dayOf msgs = [] := by
  unfold groupByPeriod
  suffices hgen : ∀ (msgs2 : List ChMsg) (acc : List (String × List ChMsg)),
      (∀ m ∈ msgs2, dayOf (m.timestamp_raw.getD (m.timestamp.getD "")) = none) →
      (msgs2.foldl (fun periods msg =>
        let timestamp_str := msg.timestamp_raw.getD (msg.timestamp.getD "")
        if timestamp_str = "" then periods
        else match dayOf timestamp_str with
          | none => periods
          | some period_key => upsertA period_key [] (fun l => l ++ [msg]) periods) acc) =
        acc by
    exact hgen msgs [] h
  intro msgs2
  induction msgs2 with
  | nil => intro acc _; rfl
  | cons m2 rest ih =>
    intro acc hall
    simp only [List.foldl_cons]
    have hstep : (let timestamp_str := m2.timestamp_raw.getD (m2.timestamp.getD "")
        if timestamp_str = "" then acc
        else match dayOf timestamp_str with
          | none => acc
          | some period_key => upsertA period_key [] (fun l => l ++ [m2]) acc) = acc := by
      by_cases he : (m2.timestamp_raw.getD (m2.timestamp.getD "")) = ""
      · simp only [he, if_pos]
      · simp only [if_neg he, hall m2 (by simp)]
    rw [hstep]
    exact ih acc (fun m hm => hall m (by simp [hm]))

/-- C9 (counterexample): 1500 messages (Medium range) whose timestamps all
fail to parse select the Medium tier but crash with an IndexError in
`_create_medium_synthesis_prompt` (reading `daily_summaries[0]` of an empty
list) before any completion call: zero calls are issued, not one. -/
theorem c9_medium_tier_counterexample :
    cexMsgs1500.length = 1500 ∧
    1000 ≤ cexMsgs1500.length ∧ cexMsgs1500.length < 10000 ∧
    summarize_combined_messages cexComplete (fun _ => 0) (fun _ => none)
        cexMsgs1500 "chan" "english" =
      (Except.error "IndexError: list index out of range", []) := by
  have hlen : cexMsgs1500.length = 1500 := by
    rw [show cexMsgs1500 =
      List.replicate 1500 (⟨some "g", none, none, none⟩ : ChMsg) from rfl]
    rw [List.length_replicate]
  have hgrp : groupByPeriod (fun _ => none) cexMsgs1500 = [] :=
    groupByPeriod_eq_nil_of_none _ _ (fun m _ => rfl)
  have hds : dailySummariesOf (fun _ => none) cexMsgs1500 = [] := by
    rw [show dailySummariesOf (fun _ => none) cexMsgs1500 =
      ((stableSortBy (fun a b : String × List ChMsg => strLt a.1 b.1)
        (groupByPeriod (fun _ => none) cexMsgs1500)).filter (fun q => ¬ q.2.isEmpty)).map
        (fun q => daySummaryOf q.1 q.2) from rfl]
    rw [hgrp]
    rfl
  have hmain : summarize_combined_messages cexComplete (fun _ => 0) (fun _ => none)
      cexMsgs1500 "chan" "english" =
      (Except.error "IndexError: list index out of range", []) := by
    unfold summarize_combined_messages
    rw [if_neg (by omega), if_pos (by omega)]
    simp only [_summarize_medium_dataset]
    rw [hds]
    rfl
  exact ⟨hlen, by omega, by omega, hmain⟩

/-- Witness input for C9 (amended): 1000 messages, each on day
2024-01-01 under `wDayOf`. -/
def wMsgs1000 : List ChMsg := List.replicate 1000 ⟨some "x", none, some "bob", some "hi"⟩

/-- Witness for the amended C9 theorem at 1000 concrete parseable
messages. -/
theorem c9_medium_tier_amended_witness :
    ((1000 ≤ wMsgs1000.length ∧ wMsgs1000.length < 10000) ∧
      (∃ m ∈ wMsgs1000, (m.timestamp_raw.getD (m.timestamp.getD "")) ≠ "" ∧
        (wDayOf (m.timestamp_raw.getD (m.timestamp.getD ""))).isSome)) ∧
    (summarize_combined_messages cexComplete (fun _ => 0) wDayOf wMsgs1000 "chan" "english" =
      _summarize_medium_dataset cexComplete wDayOf wMsgs1000 "chan"
        ((lookupA (pyLower "english") supportedLanguages).getD ⟨"English", "English"⟩) ∧
      ∃ p : MediumPrompt,
        (summarize_combined_messages cexComplete (fun _ => 0) wDayOf wMsgs1000
            "chan" "english").2 =
          [⟨"gpt-4o-mini", 3000, PromptData.mediumSynthesis p⟩] ∧
        p.summariesShown.length ≤ 20 ∧
        p.summariesShown =
          (pyTakeLast 20 (dailySummariesOf wDayOf wMsgs1000)).map dayDigestTextOf) := by
  have hlen : wMsgs1000.length = 1000 := by
    rw [show wMsgs1000 =
      List.replicate 1000 (⟨some "x", none, some "bob", some "hi"⟩ : ChMsg) from rfl]
    rw [List.length_replicate]
  have h3w : ∃ m ∈ wMsgs1000, (m.timestamp_raw.getD (m.timestamp.getD "")) ≠ "" ∧
      (wDayOf (m.timestamp_raw.getD (m.timestamp.getD ""))).isSome := by
    refine ⟨⟨some "x", none, some "bob", some "hi"⟩, ?_, by decide, by decide⟩
    rw [show wMsgs1000 =
      List.replicate 1000 (⟨some "x", none, some "bob", some "hi"⟩ : ChMsg) from rfl]
    exact List.mem_replicate.mpr ⟨by omega, rfl⟩
  exact ⟨⟨⟨by omega, by omega⟩, h3w⟩,
    c9_medium_tier_amended cexComplete (fun _ => 0) wDayOf wMsgs1000 "chan" "english"
      (by omega) (by omega) h3w⟩
